import Mathlib

/-
Verification of the iptables Table reconciler (package iptables of felix).

The Go source under verification is the Table reconciler: it caches desired
chains and rule insertions, reads back dataplane state via iptables-save
(extracting per-rule hash fingerprints from comments), computes a minimal
diff and commits it via iptables-restore.

Modelling conventions:
- Go maps become association lists with first-occurrence lookup (mapGet),
  functional update (mapSet) and delete (mapDel).
- Go set.Set (the dirty sets) become lists of strings with add-if-absent.
- time.Time / time.Duration become Int (nanosecond instants) and Nat
  (nanosecond durations).  time.Hour is hourNs.
- Subprocess effects are parameters: the iptables-save read-back is a list
  of (chain, hashes) pairs, the iptables-restore outcome is a Bool.
- Regex matching of the configured comment pattern and of the legacy
  old-insert pattern is abstracted into function-valued parameters
  (LineMatchers); the two fixed anchored regexes of the parser
  (chain forward-declarations and append lines) are implemented concretely.
-/

set_option maxRecDepth 8000

namespace Felix

/-- Association-list lookup, the shallow embedding of a Go map read
(first occurrence wins; states built here keep keys unique). -/
def mapGet {α : Type} : List (String × α) → String → Option α
  | [], _ => none
  | (k, v) :: rest, c => if k = c then some v else mapGet rest c

/-- Association-list update, the shallow embedding of a Go map write. -/
def mapSet {α : Type} : List (String × α) → String → α → List (String × α)
  | [], k, v => [(k, v)]
  | (k0, v0) :: rest, k, v =>
    if k0 = k then (k, v) :: rest else (k0, v0) :: mapSet rest k v

/-- Association-list removal, the shallow embedding of Go delete(m, k). -/
def mapDel {α : Type} : List (String × α) → String → List (String × α)
  | [], _ => []
  | (k0, v0) :: rest, k => if k0 = k then rest else (k0, v0) :: mapDel rest k

/-- Set-style insertion into a dirty set (set.Set.Add). -/
def addName (l : List String) (c : String) : List String :=
  if c ∈ l then l else l ++ [c]

/-- numEmptyStrings from the source: the number of empty-string entries. -/
def numEmptyStrings (strs : List String) : Nat :=
  (strs.filter (fun s => s == "")).length

/-- Modelled from the spec: a Rule is an immutable match-criteria + action
value; its rendering and hashing code (Rule.RenderAppend and friends,
Chain.RuleHashes) is not under src, and the reconciler only uses rules by
structural identity, so the body is kept opaque as one fragment string. -/
structure Rule where
  fragment : String
deriving DecidableEq, Repr

/-- Modelled from the spec: one line of the accumulated iptables-restore
transaction text.  The renderers (RenderReplace/RenderAppend/RenderInsert,
deleteRule, WriteForwardReference, the --delete-chain line) are kept as
constructors carrying exactly the data the source formats into the line. -/
inductive Line where
  | forwardRef (chain : String)
  | replaceRule (chain : String) (ruleNum : Nat) (hash : String) (rule : Rule)
  | appendRule (chain : String) (hash : String) (rule : Rule)
  | insertRule (chain : String) (hash : String) (rule : Rule)
  | deleteRule (chain : String) (ruleNum : Nat)
  | deleteChain (chain : String)
deriving DecidableEq, Repr

/-- The chain a transaction line concerns. -/
def Line.chain : Line → String
  | .forwardRef c => c
  | .replaceRule c _ _ _ => c
  | .appendRule c _ _ => c
  | .insertRule c _ _ => c
  | .deleteRule c _ => c
  | .deleteChain c => c

/-- insertMode of the Table ("insert" or "append"). -/
inductive InsertMode where
  | insert
  | append
deriving DecidableEq, Repr

/-- The per-Table configuration the reconciliation algorithm consults.
ourChains embeds ourChainsRegexp.MatchString; ruleHashes is modelled from
the spec: Chain.RuleHashes computes deterministic per-rule fingerprints
(one per rule, as a function of chain name and rule list) and its code is
not under src. -/
structure Config where
  nftablesMode : Bool
  insertMode : InsertMode
  ourChains : String → Bool
  ruleHashes : String → List Rule → List String

/-- The mutable state of a Table (the fields of the Go struct that the
reconciliation algorithm reads and writes). -/
structure TableState where
  chainToInsertedRules : List (String × List Rule)
  dirtyInserts : List String
  chainNameToChain : List (String × List Rule)
  dirtyChains : List String
  inSyncWithDataPlane : Bool
  chainToDataplaneHashes : List (String × List String)
  lastReadTime : Int
  lastWriteTime : Int
  initialPostWriteInterval : Nat
  postWriteInterval : Nat
  refreshInterval : Nat
deriving DecidableEq, Repr

/- ------------------------------------------------------------------ -/
/- readHashesFrom: parsing iptables-save output                        -/
/- ------------------------------------------------------------------ -/

/-- The maximal run of non-whitespace characters at the head (the greedy
capture of a backslash-S-plus group). -/
def takeNonWS : List Char → List Char
  | [] => []
  | c :: t => if c.isWhitespace then [] else c :: takeNonWS t

/-- chainCreateRegexp, the anchored pattern matching a chain
forward-declaration line and capturing the chain name (one or more
non-whitespace characters after the leading colon). -/
def parseChainDecl (line : String) : Option String :=
  match line.toList with
  | ':' :: rest =>
    let name := takeNonWS rest
    if name.isEmpty then none else some (String.mk name)
  | _ => none

/-- appendRegexp, the anchored pattern matching a rule append line and
capturing the chain name. -/
def parseAppend (line : String) : Option String :=
  match line.toList with
  | '-' :: 'A' :: ' ' :: rest =>
    let name := takeNonWS rest
    if name.isEmpty then none else some (String.mk name)
  | _ => none

/-- The two configurable matchers readHashesFrom applies to an append line:
hashComment returns the capture of the first match of hashCommentRegexp
(built from the configured comment prefix), oldInsert reports whether
oldInsertRegexp (built from the historic prefixes and the extra cleanup
pattern) matches anywhere in the line. -/
structure LineMatchers where
  hashComment : String → Option String
  oldInsert : String → Bool

/-- The fingerprint readHashesFrom records for one append line: the comment
hash if present, else the "OLD INSERT RULE" sentinel if the legacy pattern
matches, else the empty string. -/
def ruleFingerprint (m : LineMatchers) (line : String) : String :=
  match m.hashComment line with
  | some h => h
  | none => if m.oldInsert line then "OLD INSERT RULE" else ""

/-- One iteration of the readHashesFrom scanner loop. -/
def readHashesStep (m : LineMatchers) (hashes : List (String × List String))
    (line : String) : List (String × List String) :=
  match parseChainDecl line with
  | some chainName => mapSet hashes chainName []
  | none =>
    match parseAppend line with
    | some chainName =>
      mapSet hashes chainName ((mapGet hashes chainName).getD [] ++ [ruleFingerprint m line])
    | none => hashes

/-- readHashesFrom: scan the save-command output lines, building the map
from chain name to the list of per-rule fingerprints. -/
def readHashesFrom (m : LineMatchers) (lines : List String) :
    List (String × List String) :=
  lines.foldl (readHashesStep m) []

/-- The specification's per-chain view of the parse, written from the claim:
a line declaring the chain establishes an empty fingerprint list, an append
line for the chain appends that line's fingerprint, every other line leaves
the chain alone; a chain never mentioned has no entry. -/
def chainHistoryStep (m : LineMatchers) (c : String)
    (acc : Option (List String)) (line : String) : Option (List String) :=
  match parseChainDecl line with
  | some c2 => if c2 = c then some [] else acc
  | none =>
    match parseAppend line with
    | some c2 => if c2 = c then some (acc.getD [] ++ [ruleFingerprint m line]) else acc
    | none => acc

/-- Per-chain fingerprint history over a whole save output. -/
def chainHistory (m : LineMatchers) (lines : List String) (c : String) :
    Option (List String) :=
  lines.foldl (chainHistoryStep m c) none

/- ------------------------------------------------------------------ -/
/- Concrete matchers for the unit-test configuration                   -/
/- ------------------------------------------------------------------ -/

/-- Match a literal character sequence, returning the remainder. -/
def matchLit : List Char → List Char → Option (List Char)
  | [], rest => some rest
  | _ :: _, [] => none
  | c :: cs, d :: ds => if c = d then matchLit cs ds else none

/-- The character class of a rule hash ([a-zA-Z0-9_-]). -/
def isHashChar (c : Char) : Bool := c.isAlphanum || c = '_' || c = '-'

/-- Try to match the comment pattern at the given position: the literal
text of a comment flag, an optional double quote, the configured hash
prefix, then a maximal non-empty run of hash characters (the capture). -/
def extractHashAt (pfx : List Char) (s : List Char) : Option String :=
  match matchLit "--comment ".toList s with
  | none => none
  | some r1 =>
    let r2 := match r1 with
      | '"' :: t => t
      | _ => r1
    match matchLit pfx r2 with
    | none => none
    | some r3 =>
      let hs := r3.takeWhile isHashChar
      if hs.isEmpty then none else some (String.mk hs)

/-- First match of the comment pattern anywhere in the line. -/
def findHashIn (pfx : List Char) : List Char → Option String
  | [] => none
  | c :: t =>
    match extractHashAt pfx (c :: t) with
    | some h => some h
    | none => findHashIn pfx t

/-- Substring containment. -/
def hasSub : List Char → List Char → Bool
  | [], needle => needle.isEmpty
  | c :: t, needle => (matchLit needle (c :: t)).isSome || hasSub t needle

/-- The matchers NewTable builds for the unit-test options: hash comment
prefix "cali:", historic chain prefixes ["felix-", "cali"], extra cleanup
pattern "an-old-rule". -/
def caliMatchers : LineMatchers where
  hashComment := fun line => findHashIn "cali:".toList line.toList
  oldInsert := fun line =>
    ["-j felix-", "--jump felix-", "-j cali", "--jump cali", "an-old-rule"].any
      (fun n => hasSub line.toList n.toList)

/- ------------------------------------------------------------------ -/
/- expectedHashesForInsertChain and loadDataplaneState                 -/
/- ------------------------------------------------------------------ -/

/-- Write a list of values into an accumulator starting at an offset (the
allHashes[i+offset] = hash loop; List.set out of range is a no-op where Go
would panic, which only differs when ruleHashes breaks its length
contract). -/
def writeAt : List String → Nat → List String → List String
  | acc, _, [] => acc
  | acc, i, h :: hs => writeAt (acc.set i h) (i + 1) hs

/-- expectedHashesForInsertChain: the expected whole-chain hash list for an
insertion-target chain, given the number of non-Calico rules currently in
it: a list of that many empty strings with our rule hashes written at the
start (insert mode) or at the end (append mode).  Also returns the bare
rule hashes. -/
def expectedHashesForInsertChain (cfg : Config) (s : TableState)
    (chainName : String) (numNonCalicoRules : Nat) :
    List String × List String :=
  let insertedRules := (mapGet s.chainToInsertedRules chainName).getD []
  let ourHashes := cfg.ruleHashes chainName insertedRules
  let offset := if cfg.insertMode = InsertMode.append then numNonCalicoRules else 0
  (writeAt (List.replicate (insertedRules.length + numNonCalicoRules) "") offset ourHashes,
   ourHashes)

/-- One step of the first loadDataplaneState loop: check one previously
known chain against the read-back state and mark it dirty if out of
sync. -/
def loadCheckOne (cfg : Config) (dp : List (String × List String))
    (chainName : String) (expectedHashes : List String) (st : TableState) :
    TableState :=
  if chainName ∈ st.dirtyChains ∨ chainName ∈ st.dirtyInserts then st
  else
    let dpHashes := (mapGet dp chainName).getD []
    if cfg.ourChains chainName then
      if dpHashes = expectedHashes then st
      else { st with dirtyChains := addName st.dirtyChains chainName }
    else
      let insertedRules := (mapGet st.chainToInsertedRules chainName).getD []
      if insertedRules.isEmpty then
        if dpHashes.any (fun h => h != "") then
          { st with dirtyInserts := addName st.dirtyInserts chainName }
        else st
      else
        if dpHashes = (expectedHashesForInsertChain cfg st chainName
            (numEmptyStrings dpHashes)).1 then st
        else { st with dirtyInserts := addName st.dirtyInserts chainName }

/-- One step of the second loadDataplaneState loop: scan one read-back
chain that may be unexpected and mark it for cleanup. -/
def loadScanOne (cfg : Config) (oldHashes : List (String × List String))
    (chainName : String) (dpChainHashes : List String) (st : TableState) :
    TableState :=
  if chainName ∈ st.dirtyChains ∨ chainName ∈ st.dirtyInserts then st
  else if (mapGet oldHashes chainName).isSome then st
  else if cfg.ourChains chainName then
    { st with dirtyChains := addName st.dirtyChains chainName }
  else if dpChainHashes.any (fun h => h != "") then
    { st with dirtyInserts := addName st.dirtyInserts chainName }
  else st

/-- loadDataplaneState: record the read time, compare the read-back hashes
(dp) against the cached expectations marking divergent chains dirty, scan
for unexpected chains, then replace the cache and declare the state in
sync. -/
def loadDataplaneState (cfg : Config) (now : Int)
    (dp : List (String × List String)) (s : TableState) : TableState :=
  let s1 := s.chainToDataplaneHashes.foldl
    (fun st p => loadCheckOne cfg dp p.1 p.2 st) s
  let s2 := dp.foldl
    (fun st p => loadScanOne cfg s.chainToDataplaneHashes p.1 p.2 st) s1
  { s2 with
      chainToDataplaneHashes := dp
      lastReadTime := now
      inSyncWithDataPlane := true }

/- ------------------------------------------------------------------ -/
/- applyUpdates: building and committing the transaction               -/
/- ------------------------------------------------------------------ -/

/-- The nftables-mode skip test inside the first dirty-chains pass: the
chain's previous hashes are non-empty and equal to the hashes of the
desired chain (a missing desired chain hashes to nil). -/
def nftChainOk (cfg : Config) (s : TableState) (chainName : String) : Bool :=
  let currentHashes := match mapGet s.chainNameToChain chainName with
    | some rules => cfg.ruleHashes chainName rules
    | none => []
  let previousHashes := (mapGet s.chainToDataplaneHashes chainName).getD []
  decide (previousHashes ≠ [] ∧ currentHashes = previousHashes)

/-- The dirty-chains set after the first pass: in nftables mode the pass
removes already-correct chains from the set (set.RemoveItem); in legacy
mode it is untouched. -/
def filteredDirtyChains (cfg : Config) (s : TableState) : List String :=
  if cfg.nftablesMode then
    s.dirtyChains.filter (fun c => ! nftChainOk cfg s c)
  else s.dirtyChains

/-- Whether the first pass writes a forward reference (create + flush) for
a dirty chain: always in nftables mode (the already-correct chains having
been removed), otherwise when the chain is being deleted or does not yet
exist in the dataplane. -/
def needsFlush (cfg : Config) (s : TableState) (chainName : String) : Bool :=
  if cfg.nftablesMode then true
  else if (mapGet s.chainNameToChain chainName).isNone then true
  else (mapGet s.chainToDataplaneHashes chainName).isNone

/-- The per-position diff loop of the second dirty-chains pass: replace
where both sides have a rule and the hashes differ, delete from the end at
the fixed 1-indexed position delPos when the previous chain was longer,
append when the new chain is longer.  cur pairs each new hash with its
rule; n is the 1-indexed position of the head. -/
def chainDiffLines (chainName : String) (delPos : Nat) :
    List String → List (String × Rule) → Nat → List Line
  | [], [], _ => []
  | [], (h, r) :: cur, n =>
    Line.appendRule chainName h r :: chainDiffLines chainName delPos [] cur (n + 1)
  | _ :: prev, [], n =>
    Line.deleteRule chainName delPos :: chainDiffLines chainName delPos prev [] (n + 1)
  | p :: prev, (h, r) :: cur, n =>
    (if p = h then [] else [Line.replaceRule chainName n h r])
      ++ chainDiffLines chainName delPos prev cur (n + 1)

/-- The rule-change lines for one dirty chain that still has a desired
chain: diff the previous hashes (taken as nil in nftables mode to force a
full rewrite) against the desired hashes. -/
def chainUpdateLines (cfg : Config) (s : TableState) (chainName : String) :
    List Line :=
  match mapGet s.chainNameToChain chainName with
  | none => []
  | some rules =>
    let previousHashes :=
      if cfg.nftablesMode then []
      else (mapGet s.chainToDataplaneHashes chainName).getD []
    let currentHashes := cfg.ruleHashes chainName rules
    chainDiffLines chainName (currentHashes.length + 1) previousHashes
      (currentHashes.zip rules) 1

/-- The deletions of previously tracked inserted rules for one dirty
insertion-target chain, in descending position order, skipping rules that
are not ours. -/
def insertDeleteLines (chainName : String) (previousHashes : List String) :
    List Line :=
  previousHashes.enum.reverse.filterMap (fun p =>
    if p.2 = "" then none else some (Line.deleteRule chainName (p.1 + 1)))

/-- The lines for one dirty insertion-target chain: nothing if the chain
already matches its expected hashes, otherwise delete all our previous
rules then re-render the desired insertions (in reverse for insert mode,
in order for append mode). -/
def insertChainLines (cfg : Config) (s : TableState) (chainName : String) :
    List Line :=
  let previousHashes := (mapGet s.chainToDataplaneHashes chainName).getD []
  let pair := expectedHashesForInsertChain cfg s chainName
    (numEmptyStrings previousHashes)
  if pair.1 = previousHashes then []
  else
    let rules := (mapGet s.chainToInsertedRules chainName).getD []
    let rendered :=
      if cfg.insertMode = InsertMode.insert then
        ((pair.2.zip rules).map (fun q => Line.insertRule chainName q.1 q.2)).reverse
      else
        (pair.2.zip rules).map (fun q => Line.appendRule chainName q.1 q.2)
    insertDeleteLines chainName previousHashes ++ rendered

/-- All forward references written by the first pass. -/
def txFlushLines (cfg : Config) (s : TableState) : List Line :=
  ((filteredDirtyChains cfg s).filter (needsFlush cfg s)).map Line.forwardRef

/-- All rule-change lines written by the second pass. -/
def txUpdateLines (cfg : Config) (s : TableState) : List Line :=
  (filteredDirtyChains cfg s).flatMap (chainUpdateLines cfg s)

/-- All insertion-maintenance lines written by the third pass. -/
def txInsertLines (cfg : Config) (s : TableState) : List Line :=
  s.dirtyInserts.flatMap (insertChainLines cfg s)

/-- The dirty chains with no desired chain: these get deleted. -/
def deletedChains (cfg : Config) (s : TableState) : List String :=
  (filteredDirtyChains cfg s).filter
    (fun c => (mapGet s.chainNameToChain c).isNone)

/-- The --delete-chain lines of the final pass. -/
def txDeleteLines (cfg : Config) (s : TableState) : List Line :=
  (deletedChains cfg s).map Line.deleteChain

/-- Modelled from the spec: the RestoreInputBuilder discards a transaction
with no lines, so the committed input is the list of non-empty
transactions.  In nftables mode the deletions (preceded by fresh forward
references) go into a second transaction; in legacy mode everything is one
transaction. -/
def buildTxs (cfg : Config) (s : TableState) : List (List Line) :=
  if cfg.nftablesMode then
    let tx1 := txFlushLines cfg s ++ txUpdateLines cfg s ++ txInsertLines cfg s
    let tx2 := (deletedChains cfg s).map Line.forwardRef ++ txDeleteLines cfg s
    (if tx1.isEmpty then [] else [tx1]) ++ (if tx2.isEmpty then [] else [tx2])
  else
    let tx := txFlushLines cfg s ++ txUpdateLines cfg s ++ txInsertLines cfg s
      ++ txDeleteLines cfg s
    if tx.isEmpty then [] else [tx]

/-- The newHashes map accumulated while writing the transaction: the new
hash list for every updated chain, none (Go nil) for every deleted
chain. -/
def buildNewHashes (cfg : Config) (s : TableState) :
    List (String × Option (List String)) :=
  let dirty := filteredDirtyChains cfg s
  let m1 := dirty.foldl (fun m c =>
    match mapGet s.chainNameToChain c with
    | some rules => mapSet m c (some (cfg.ruleHashes c rules))
    | none => m) []
  let m2 := s.dirtyInserts.foldl (fun m c =>
    let previousHashes := (mapGet s.chainToDataplaneHashes c).getD []
    let newChainHashes := (expectedHashesForInsertChain cfg s c
      (numEmptyStrings previousHashes)).1
    if newChainHashes = previousHashes then m
    else mapSet m c (some newChainHashes)) m1
  dirty.foldl (fun m c =>
    if (mapGet s.chainNameToChain c).isNone then mapSet m c none else m) m2

/-- Merge the newHashes into the dataplane cache: a nil hash list removes
the chain's entry, any other list replaces it. -/
def mergeHashes (cache : List (String × List String))
    (nh : List (String × Option (List String))) :
    List (String × List String) :=
  nh.foldl (fun m p =>
    match p.2 with
    | none => mapDel m p.1
    | some hs => mapSet m p.1 hs) cache

/-- The outcome of one applyUpdates call: the new table state, the
committed transactions, whether iptables-restore was invoked, and whether
the call succeeded. -/
structure UpdResult where
  state : TableState
  txs : List (List Line)
  invoked : Bool
  ok : Bool
deriving Repr

/-- applyUpdates: build the transaction; if it is empty skip the restore
command entirely, otherwise run it (outcome restoreOk).  On failure mark
the cache invalid and return with the dirty sets as they stand (only the
nftables-mode first pass has removed already-correct chains).  On success
(or no-op) clear both dirty sets and merge the new hashes into the
cache; a real write also records the write time and resets the post-write
interval to its initial value. -/
def applyUpdates (cfg : Config) (restoreOk : Bool) (now : Int)
    (s : TableState) : UpdResult :=
  let dirty := filteredDirtyChains cfg s
  let txs := buildTxs cfg s
  let nh := buildNewHashes cfg s
  if txs.isEmpty then
    { state := { s with
        dirtyChains := []
        dirtyInserts := []
        chainToDataplaneHashes := mergeHashes s.chainToDataplaneHashes nh }
      txs := txs
      invoked := false
      ok := true }
  else if restoreOk then
    { state := { s with
        dirtyChains := []
        dirtyInserts := []
        chainToDataplaneHashes := mergeHashes s.chainToDataplaneHashes nh
        lastWriteTime := now
        postWriteInterval := s.initialPostWriteInterval }
      txs := txs
      invoked := true
      ok := true }
  else
    { state := { s with dirtyChains := dirty, inSyncWithDataPlane := false }
      txs := txs
      invoked := true
      ok := false }

/- ------------------------------------------------------------------ -/
/- Apply                                                               -/
/- ------------------------------------------------------------------ -/

/-- time.Hour in nanoseconds. -/
def hourNs : Nat := 3600000000000

/-- One millisecond in nanoseconds. -/
def oneMs : Int := 1000000

/-- minPostWriteInterval (50 milliseconds) in nanoseconds. -/
def minPostWriteNs : Nat := 50000000

/-- The guard of the post-write backoff loop: the interval is non-zero,
below one hour, and at least the post-write interval has passed since the
last write. -/
def pwDueB (now lastWrite : Int) (p : Nat) : Bool :=
  decide (p ≠ 0 ∧ p < hourNs ∧ lastWrite + (p : Int) ≤ now)

/-- The doubling loop on the post-write interval, fuelled; 100 iterations
always exceed the doublings needed to reach one hour from any positive
interval, and a zero interval exits immediately, so the fuel never runs
out on the loop's actual domain. -/
def pwLoopAux : Nat → Int → Int → Nat → Nat
  | 0, _, _, p => p
  | fuel + 1, now, lastWrite, p =>
    if pwDueB now lastWrite p then pwLoopAux fuel now lastWrite (2 * p) else p

/-- The post-write interval after the backoff loop at the top of Apply. -/
def pwLoop (now lastWrite : Int) (p : Nat) : Nat :=
  pwLoopAux 100 now lastWrite p

/-- The external world one Apply call interacts with: the current time,
the hash lists a dataplane read would return, and whether an
iptables-restore invocation succeeds. -/
structure Env where
  now : Int
  dp : List (String × List String)
  restoreOk : Bool

/-- The cache-invalidation preamble of Apply: invalidate on refresh-timer
expiry, and run the post-write doubling loop, invalidating if it runs at
least once. -/
def applyPreamble (env : Env) (s : TableState) : TableState :=
  let refreshDue : Bool :=
    decide (0 < s.refreshInterval ∧ (s.refreshInterval : Int) < env.now - s.lastReadTime)
  let postWriteDue := pwDueB env.now s.lastWriteTime s.postWriteInterval
  { s with
      postWriteInterval := pwLoop env.now s.lastWriteTime s.postWriteInterval
      inSyncWithDataPlane :=
        s.inSyncWithDataPlane && !(refreshDue || postWriteDue) }

/-- The bounded retry loop of Apply: reload the dataplane state when the
cache is invalid, attempt applyUpdates, and retry on failure.  Returns the
final state and the number of iptables-restore invocations, or none when
the attempts are exhausted (the Go code panics there). -/
def applyLoop (cfg : Config) (env : Env) :
    Nat → TableState → Nat → Option (TableState × Nat)
  | 0, _, _ => none
  | fuel + 1, s, n =>
    let s1 := if s.inSyncWithDataPlane then s
              else loadDataplaneState cfg env.now env.dp s
    let r := applyUpdates cfg env.restoreOk env.now s1
    if r.ok then some (r.state, n + (if r.invoked then 1 else 0))
    else applyLoop cfg env fuel r.state (n + 1)

/-- The reschedule computation at the end of Apply: start from the
refresh-interval remainder when a refresh interval is set, then let the
post-write remainder override it when the post-write interval is below one
hour (clamping to one millisecond when that remainder is not positive). -/
def rescheduleTime (now : Int) (s : TableState) : Int :=
  let base : Int :=
    if 0 < s.refreshInterval then (s.refreshInterval : Int) - (now - s.lastReadTime)
    else 0
  if s.postWriteInterval < hourNs then
    let postWriteReched := s.lastWriteTime + (s.postWriteInterval : Int) - now
    if postWriteReched ≤ 0 then oneMs
    else if s.refreshInterval = 0 ∨ postWriteReched < base then postWriteReched
    else base
  else base

/-- Apply: the preamble, then the retry loop (10 retries after the first
attempt), then the reschedule hint.  The result carries the final state,
the number of restore invocations, and the returned duration. -/
def Apply (cfg : Config) (env : Env) (s : TableState) :
    Option (TableState × Nat × Int) :=
  (applyLoop cfg env 11 (applyPreamble env s) 0).map
    (fun p => (p.1, p.2, rescheduleTime env.now p.1))

/- ------------------------------------------------------------------ -/
/- NewTable                                                            -/
/- ------------------------------------------------------------------ -/

/-- The kernel-created top-level chains by table name. -/
def tableToKernelChains (name : String) : List String :=
  if name = "filter" then ["INPUT", "FORWARD", "OUTPUT"]
  else if name = "nat" then ["PREROUTING", "INPUT", "OUTPUT", "POSTROUTING"]
  else if name = "mangle" then
    ["PREROUTING", "INPUT", "FORWARD", "OUTPUT", "POSTROUTING"]
  else if name = "raw" then ["PREROUTING", "OUTPUT"]
  else []

/-- NewTable: the initial reconciler state: an empty insertion list and a
dirty-inserts mark for every kernel chain of the table, empty desired and
cached state, cache invalid, last write set to the construction time, and
the post-write interval floored at its minimum. -/
def NewTable (name : String) (now : Int)
    (refreshInterval postWriteInterval : Nat) : TableState :=
  let pw := if postWriteInterval ≤ minPostWriteNs then minPostWriteNs
            else postWriteInterval
  { chainToInsertedRules := (tableToKernelChains name).map (fun c => (c, []))
    dirtyInserts := tableToKernelChains name
    chainNameToChain := []
    dirtyChains := []
    inSyncWithDataPlane := false
    chainToDataplaneHashes := []
    lastReadTime := 0
    lastWriteTime := now
    initialPostWriteInterval := pw
    postWriteInterval := pw
    refreshInterval := refreshInterval }

/- ------------------------------------------------------------------ -/
/- Map lemmas                                                          -/
/- ------------------------------------------------------------------ -/

theorem mapGet_mapSet {α : Type} (m : List (String × α)) (k c : String) (v : α) :
    mapGet (mapSet m k v) c = if k = c then some v else mapGet m c := by
  induction m with
  | nil => simp [mapSet, mapGet]
  | cons p rest ih =>
    obtain ⟨k0, v0⟩ := p
    by_cases h : k0 = k
    · subst h
      by_cases h2 : k0 = c
      · subst h2
        simp [mapSet, mapGet]
      · simp [mapSet, mapGet, h2]
    · by_cases h2 : k0 = c
      · subst h2
        have hkc : ¬ k = k0 := fun hh => h hh.symm
        simp [mapSet, mapGet, h, hkc]
      · simp [mapSet, mapGet, h, h2, ih]

theorem mapGet_readHashesStep (m : LineMatchers)
    (hs : List (String × List String)) (line : String) (c : String) :
    mapGet (readHashesStep m hs line) c
      = chainHistoryStep m c (mapGet hs c) line := by
  cases h1 : parseChainDecl line with
  | some c2 =>
    simp only [readHashesStep, chainHistoryStep, h1, mapGet_mapSet]
  | none =>
    cases h2 : parseAppend line with
    | some c2 =>
      simp only [readHashesStep, chainHistoryStep, h1, h2, mapGet_mapSet]
      by_cases h : c2 = c
      · subst h
        simp
      · simp [h]
    | none => simp only [readHashesStep, chainHistoryStep, h1, h2]

theorem mapGet_readHashes_foldl (m : LineMatchers) (lines : List String) :
    ∀ hs c, mapGet (lines.foldl (readHashesStep m) hs) c
      = lines.foldl (chainHistoryStep m c) (mapGet hs c) := by
  induction lines with
  | nil => intro hs c; rfl
  | cons l ls ih =>
    intro hs c
    simp only [List.foldl]
    rw [ih, mapGet_readHashesStep]

/-- Claim C1: for every save output fed to readHashesFrom, the returned map
holds, per chain, the ordered per-rule fingerprint list built as follows: a
chain forward-declaration line establishes an empty list for that chain, an
append line for that chain appends the first comment-pattern capture if
present, else the non-empty "OLD INSERT RULE" sentinel if the legacy
old-style-hook pattern matches, else the empty string, and every other line
is ignored (chainHistory is exactly this description, read per chain). -/
theorem readHashesFrom_per_chain (m : LineMatchers) (lines : List String)
    (c : String) :
    mapGet (readHashesFrom m lines) c = chainHistory m lines c := by
  unfold readHashesFrom chainHistory
  rw [mapGet_readHashes_foldl]
  rfl

example :
    readHashesFrom caliMatchers ["-A FORWARD -j felix-FORWARD"]
      = [("FORWARD", ["OLD INSERT RULE"])] := by rfl

example :
    readHashesFrom caliMatchers
      ["-A FORWARD -j an-old-rule", "-A FORWARD -j ignore-me"]
      = [("FORWARD", ["OLD INSERT RULE", ""])] := by rfl

example :
    readHashesFrom caliMatchers
      ["-A FORWARD -m comment --comment \"cali:wUHhoiAYhphO9Mso\" -j cali-FORWARD"]
      = [("FORWARD", ["wUHhoiAYhphO9Mso"])] := by rfl

example :
    readHashesFrom caliMatchers
      ["-A cali-abcd -m comment --comment \"cali:wUHhoiAYhphO9Mso\" -j cali-FORWARD",
       "-A cali-abcd -m comment --comment \"cali:abcdefghij1234-_\" -j cali-FORWARD",
       "-A FORWARD --src \x27 1.2.3.4\x27 ",
       "-A FORWARD -m comment --comment \"cali:1234567890093213\" -j cali-FORWARD"]
      = [("cali-abcd", ["wUHhoiAYhphO9Mso", "abcdefghij1234-_"]),
         ("FORWARD", ["", "1234567890093213"])] := by rfl

example :
    readHashesFrom caliMatchers [":FORWARD - [0:0]", "-A FORWARD --src x"]
      = [("FORWARD", [""])] := by rfl

/- ------------------------------------------------------------------ -/
/- Concrete fixtures for counterexamples and witnesses                 -/
/- ------------------------------------------------------------------ -/

/-- A concrete deterministic stand-in for Chain.RuleHashes: one hash per
rule, depending on the chain name and the rule fragment. -/
def fragHashes : String → List Rule → List String :=
  fun c rs => rs.map (fun r => c ++ "|" ++ r.fragment)

/-- A concrete legacy-mode configuration (insert mode, chains named
cali... are ours). -/
def cfgLegacy : Config where
  nftablesMode := false
  insertMode := InsertMode.insert
  ourChains := fun c => (matchLit "cali".toList c.toList).isSome
  ruleHashes := fragHashes

/-- The same configuration in nftables mode. -/
def cfgNft : Config where
  nftablesMode := true
  insertMode := InsertMode.insert
  ourChains := fun c => (matchLit "cali".toList c.toList).isSome
  ruleHashes := fragHashes

/-- A state whose only pending work is an insertion-target chain that is
already in sync: dirty, but producing an empty transaction. -/
def sInsSync : TableState where
  chainToInsertedRules := [("FORWARD", [⟨"f"⟩])]
  dirtyInserts := ["FORWARD"]
  chainNameToChain := []
  dirtyChains := []
  inSyncWithDataPlane := true
  chainToDataplaneHashes := [("FORWARD", ["FORWARD|f", ""])]
  lastReadTime := 0
  lastWriteTime := 11
  initialPostWriteInterval := 50000000
  postWriteInterval := 70000000
  refreshInterval := 0

/-- A state with two dirty owned chains, one already correct in the
dataplane and one needing an update. -/
def sC2 : TableState where
  chainToInsertedRules := []
  dirtyInserts := []
  chainNameToChain := [("cali-a", [⟨"x"⟩]), ("cali-b", [⟨"y"⟩])]
  dirtyChains := ["cali-a", "cali-b"]
  inSyncWithDataPlane := true
  chainToDataplaneHashes := [("cali-a", ["cali-a|x"])]
  lastReadTime := 0
  lastWriteTime := 0
  initialPostWriteInterval := 50000000
  postWriteInterval := 50000000
  refreshInterval := 0

/- ------------------------------------------------------------------ -/
/- Claim C10: empty transaction is a successful no-op                  -/
/- ------------------------------------------------------------------ -/

/-- Claim C10: if the transaction accumulated during applyUpdates is
empty, the restore command is not invoked and applyUpdates still
succeeds: both dirty sets are cleared and the newly computed hashes are
merged into the cache, while lastWriteTime and postWriteInterval are left
unchanged. -/
theorem applyUpdates_empty_noop (cfg : Config) (restoreOk : Bool)
    (now : Int) (s : TableState) (h : buildTxs cfg s = []) :
    (applyUpdates cfg restoreOk now s).invoked = false ∧
    (applyUpdates cfg restoreOk now s).ok = true ∧
    (applyUpdates cfg restoreOk now s).state.dirtyChains = [] ∧
    (applyUpdates cfg restoreOk now s).state.dirtyInserts = [] ∧
    (applyUpdates cfg restoreOk now s).state.chainToDataplaneHashes
      = mergeHashes s.chainToDataplaneHashes (buildNewHashes cfg s) ∧
    (applyUpdates cfg restoreOk now s).state.lastWriteTime = s.lastWriteTime ∧
    (applyUpdates cfg restoreOk now s).state.postWriteInterval
      = s.postWriteInterval := by
  simp [applyUpdates, h]

theorem applyUpdates_empty_noop_witness :
    buildTxs cfgLegacy sInsSync = [] ∧
    ((applyUpdates cfgLegacy true 7 sInsSync).invoked = false ∧
     (applyUpdates cfgLegacy true 7 sInsSync).ok = true ∧
     (applyUpdates cfgLegacy true 7 sInsSync).state.dirtyChains = [] ∧
     (applyUpdates cfgLegacy true 7 sInsSync).state.dirtyInserts = [] ∧
     (applyUpdates cfgLegacy true 7 sInsSync).state.chainToDataplaneHashes
       = mergeHashes sInsSync.chainToDataplaneHashes
           (buildNewHashes cfgLegacy sInsSync) ∧
     (applyUpdates cfgLegacy true 7 sInsSync).state.lastWriteTime
       = sInsSync.lastWriteTime ∧
     (applyUpdates cfgLegacy true 7 sInsSync).state.postWriteInterval
       = sInsSync.postWriteInterval) :=
  ⟨by decide, applyUpdates_empty_noop cfgLegacy true 7 sInsSync (by decide)⟩

/- ------------------------------------------------------------------ -/
/- Claim C9: NewTable pre-populates kernel-chain insertions            -/
/- ------------------------------------------------------------------ -/

theorem mapGet_map_pair {α : Type} (v : α) (c : String) :
    ∀ l : List String, c ∈ l → mapGet (l.map (fun k => (k, v))) c = some v := by
  intro l h
  induction l with
  | nil => cases h
  | cons a t ih =>
    simp only [List.map, mapGet]
    by_cases hac : a = c
    · simp [hac]
    · simp only [if_neg hac]
      apply ih
      cases h with
      | head => exact absurd rfl hac
      | tail _ h2 => exact h2

/-- Claim C9: NewTable pre-populates the desired-insertions map with an
empty rule list for each kernel-created top-level chain of the table and
marks each such chain dirty in the dirty-inserts set; consequently a first
Apply cleans up stale insertions in kernel chains even without any
SetRuleInsertions call (last conjunct: from a fresh "filter" table whose
read-back shows a legacy rule in FORWARD, the built transaction deletes
that rule). -/
theorem NewTable_kernel_chain_inserts (name : String) (now : Int)
    (refreshInterval postWriteInterval : Nat) (c : String)
    (h : c ∈ tableToKernelChains name) :
    mapGet (NewTable name now refreshInterval
        postWriteInterval).chainToInsertedRules c = some [] ∧
    c ∈ (NewTable name now refreshInterval postWriteInterval).dirtyInserts ∧
    Line.deleteRule "FORWARD" 1 ∈
      (buildTxs cfgLegacy (loadDataplaneState cfgLegacy 0
        [("FORWARD", ["OLD INSERT RULE"])] (NewTable "filter" 0 0 0))).flatten := by
  refine ⟨?_, ?_, ?_⟩
  · exact mapGet_map_pair [] c (tableToKernelChains name) h
  · simpa [NewTable] using h
  · decide

theorem NewTable_kernel_chain_inserts_witness :
    "FORWARD" ∈ tableToKernelChains "filter" ∧
    (mapGet (NewTable "filter" 3 0 0).chainToInsertedRules "FORWARD" = some [] ∧
     "FORWARD" ∈ (NewTable "filter" 3 0 0).dirtyInserts ∧
     Line.deleteRule "FORWARD" 1 ∈
       (buildTxs cfgLegacy (loadDataplaneState cfgLegacy 0
         [("FORWARD", ["OLD INSERT RULE"])] (NewTable "filter" 0 0 0))).flatten) :=
  ⟨by decide, NewTable_kernel_chain_inserts "filter" 3 0 0 "FORWARD" (by decide)⟩

/- ------------------------------------------------------------------ -/
/- Claim C2: failure leaves the dirty sets in place                    -/
/- ------------------------------------------------------------------ -/

/-- Claim C2 counterexample: an nftables-mode applyUpdates whose restore
transaction fails does change the dirty-chains set: the first pass has
already removed the chains it found to be correct (cali-a here), so the
set is not left unchanged. -/
theorem applyUpdates_failure_dirty_shrinks :
    (applyUpdates cfgNft false 0 sC2).invoked = true ∧
    (applyUpdates cfgNft false 0 sC2).ok = false ∧
    (applyUpdates cfgNft false 0 sC2).state.dirtyChains ≠ sC2.dirtyChains := by
  decide

/-- Claim C2 (amended): when the committed restore transaction fails, the
error return is taken before the dirty sets are cleared: the dirty-inserts
set is unchanged, the dirty-chains set is unchanged in legacy mode (in
nftables mode it retains exactly the dirty chains not already found
correct by the first pass), the in-sync flag is set false, and neither
the cache nor the write-tracking fields are touched. -/
theorem applyUpdates_failure_frame (cfg : Config) (now : Int)
    (s : TableState) (h : (applyUpdates cfg false now s).invoked = true) :
    (applyUpdates cfg false now s).ok = false ∧
    (applyUpdates cfg false now s).state.dirtyInserts = s.dirtyInserts ∧
    (applyUpdates cfg false now s).state.inSyncWithDataPlane = false ∧
    (applyUpdates cfg false now s).state.dirtyChains
      = filteredDirtyChains cfg s ∧
    (cfg.nftablesMode = false →
      (applyUpdates cfg false now s).state.dirtyChains = s.dirtyChains) ∧
    (applyUpdates cfg false now s).state.chainToDataplaneHashes
      = s.chainToDataplaneHashes ∧
    (applyUpdates cfg false now s).state.lastWriteTime = s.lastWriteTime ∧
    (applyUpdates cfg false now s).state.postWriteInterval
      = s.postWriteInterval := by
  by_cases hb : (buildTxs cfg s).isEmpty
  · exfalso
    simp [applyUpdates, hb] at h
  · have hd : (applyUpdates cfg false now s).state.dirtyChains
        = filteredDirtyChains cfg s := by simp [applyUpdates, hb]
    refine ⟨by simp [applyUpdates, hb], by simp [applyUpdates, hb],
      by simp [applyUpdates, hb], hd, ?_, by simp [applyUpdates, hb],
      by simp [applyUpdates, hb], by simp [applyUpdates, hb]⟩
    intro hn
    rw [hd]
    simp [filteredDirtyChains, hn]

theorem applyUpdates_failure_frame_witness :
    (applyUpdates cfgNft false 0 sC2).invoked = true ∧
    ((applyUpdates cfgNft false 0 sC2).ok = false ∧
     (applyUpdates cfgNft false 0 sC2).state.dirtyInserts = sC2.dirtyInserts ∧
     (applyUpdates cfgNft false 0 sC2).state.inSyncWithDataPlane = false ∧
     (applyUpdates cfgNft false 0 sC2).state.dirtyChains
       = filteredDirtyChains cfgNft sC2 ∧
     (cfgNft.nftablesMode = false →
       (applyUpdates cfgNft false 0 sC2).state.dirtyChains = sC2.dirtyChains) ∧
     (applyUpdates cfgNft false 0 sC2).state.chainToDataplaneHashes
       = sC2.chainToDataplaneHashes ∧
     (applyUpdates cfgNft false 0 sC2).state.lastWriteTime = sC2.lastWriteTime ∧
     (applyUpdates cfgNft false 0 sC2).state.postWriteInterval
       = sC2.postWriteInterval) :=
  ⟨by decide, applyUpdates_failure_frame cfgNft 0 sC2 (by decide)⟩

/- ------------------------------------------------------------------ -/
/- Claim C6: exponential post-write backoff                            -/
/- ------------------------------------------------------------------ -/

theorem pwLoopAux_pow (now lastWrite : Int) :
    ∀ fuel p, ∃ k, pwLoopAux fuel now lastWrite p = 2 ^ k * p
      ∧ ∀ j, j < k → pwDueB now lastWrite (2 ^ j * p) = true := by
  intro fuel
  induction fuel with
  | zero =>
    intro p
    exact ⟨0, by simp [pwLoopAux], by intro j hj; omega⟩
  | succ f ih =>
    intro p
    by_cases h : pwDueB now lastWrite p = true
    · obtain ⟨k, hk, hj⟩ := ih (2 * p)
      refine ⟨k + 1, ?_, ?_⟩
      · simp only [pwLoopAux, h, if_true]
        rw [hk]
        ring
      · intro j hjk
        cases j with
        | zero => simpa using h
        | succ i =>
          have hstep := hj i (by omega)
          have harith : 2 ^ (i + 1) * p = 2 ^ i * (2 * p) := by ring
          rw [harith]
          exact hstep
    · refine ⟨0, ?_, ?_⟩
      · simp [pwLoopAux, h]
      · intro j hj
        omega

theorem pwLoopAux_exit (now lastWrite : Int) :
    ∀ fuel p, hourNs ≤ 2 ^ fuel * p ∨ p = 0 →
      pwDueB now lastWrite (pwLoopAux fuel now lastWrite p) = false := by
  intro fuel
  induction fuel with
  | zero =>
    intro p hp
    simp only [pwLoopAux]
    rcases hp with hp | hp
    · simp only [pow_zero, one_mul] at hp
      simp only [pwDueB, decide_eq_false_iff_not]
      intro hcon
      omega
    · subst hp
      simp [pwDueB]
  | succ f ih =>
    intro p hp
    by_cases h : pwDueB now lastWrite p = true
    · have hp0 : p ≠ 0 := by
        have h2 := h
        simp only [pwDueB, decide_eq_true_eq] at h2
        exact h2.1
      have hle : hourNs ≤ 2 ^ f * (2 * p) := by
        rcases hp with hp | hp
        · calc hourNs ≤ 2 ^ (f + 1) * p := hp
            _ = 2 ^ f * (2 * p) := by ring
        · exact absurd hp hp0
      simp only [pwLoopAux, h, if_true]
      exact ih (2 * p) (Or.inl hle)
    · simp [pwLoopAux, h]

theorem pwLoop_exit (now lastWrite : Int) (p : Nat) :
    pwDueB now lastWrite (pwLoop now lastWrite p) = false := by
  apply pwLoopAux_exit
  rcases Nat.eq_zero_or_pos p with hp | hp
  · exact Or.inr hp
  · left
    have h1 : hourNs ≤ 2 ^ 100 := by norm_num [hourNs]
    calc hourNs ≤ 2 ^ 100 := h1
      _ = 2 ^ 100 * 1 := (mul_one _).symm
      _ ≤ 2 ^ 100 * p := Nat.mul_le_mul_left _ hp

/-- Claim C6: while the post-write interval is non-zero, below one hour,
and at least that long has passed since the last write, the interval is
doubled (the loop result is the interval times a power of two, every
doubling was demanded by the guard, and the guard fails at the result);
any such doubling invalidates the dataplane cache; and applyUpdates resets
the interval to its configured initial value exactly when it successfully
submits a non-empty transaction via the restore command, leaving it
unchanged otherwise. -/
theorem post_write_backoff :
    (∀ now lastWrite : Int, ∀ p : Nat, ∃ k,
        pwLoop now lastWrite p = 2 ^ k * p
        ∧ (∀ j, j < k → pwDueB now lastWrite (2 ^ j * p) = true)
        ∧ pwDueB now lastWrite (pwLoop now lastWrite p) = false)
    ∧ (∀ env : Env, ∀ s : TableState,
        pwDueB env.now s.lastWriteTime s.postWriteInterval = true →
        (applyPreamble env s).inSyncWithDataPlane = false)
    ∧ (∀ cfg : Config, ∀ restoreOk : Bool, ∀ now : Int, ∀ s : TableState,
        (applyUpdates cfg restoreOk now s).state.postWriteInterval
          = if (applyUpdates cfg restoreOk now s).invoked
                && (applyUpdates cfg restoreOk now s).ok
            then s.initialPostWriteInterval else s.postWriteInterval) := by
  refine ⟨?_, ?_, ?_⟩
  · intro now lastWrite p
    obtain ⟨k, hk, hj⟩ := pwLoopAux_pow now lastWrite 100 p
    exact ⟨k, hk, hj, pwLoop_exit now lastWrite p⟩
  · intro env s h
    simp [applyPreamble, h]
  · intro cfg restoreOk now s
    by_cases hb : (buildTxs cfg s).isEmpty
    · simp [applyUpdates, hb]
    · by_cases hr : restoreOk = true
      · simp [applyUpdates, hb, hr]
      · simp only [Bool.not_eq_true] at hr
        simp [applyUpdates, hb, hr]

/-- Environment at one hour after the epoch, used to make the post-write
guard fire. -/
def envPW : Env := ⟨3600000000000, [], true⟩

theorem post_write_backoff_witness :
    pwDueB envPW.now sInsSync.lastWriteTime sInsSync.postWriteInterval = true ∧
    (applyPreamble envPW sInsSync).inSyncWithDataPlane = false :=
  ⟨by decide, post_write_backoff.2.1 envPW sInsSync (by decide)⟩

/- ------------------------------------------------------------------ -/
/- Transaction-content lemmas                                          -/
/- ------------------------------------------------------------------ -/

/-- The lines of a transaction list that concern one chain. -/
def linesFor (c : String) (ls : List Line) : List Line :=
  ls.filter (fun l => l.chain == c)

theorem flatten_opt (tx : List Line) :
    (if tx.isEmpty then ([] : List (List Line)) else [tx]).flatten = tx := by
  by_cases h : tx.isEmpty
  · have : tx = [] := List.isEmpty_iff.mp h
    simp [h, this]
  · simp [h]

theorem buildTxs_flatten_legacy (cfg : Config) (s : TableState)
    (h : cfg.nftablesMode = false) :
    (buildTxs cfg s).flatten
      = txFlushLines cfg s ++ txUpdateLines cfg s ++ txInsertLines cfg s
        ++ txDeleteLines cfg s := by
  simp only [buildTxs, h, Bool.false_eq_true, if_false]
  rw [flatten_opt]

theorem buildTxs_flatten_nft (cfg : Config) (s : TableState)
    (h : cfg.nftablesMode = true) :
    (buildTxs cfg s).flatten
      = (txFlushLines cfg s ++ txUpdateLines cfg s ++ txInsertLines cfg s)
        ++ ((deletedChains cfg s).map Line.forwardRef ++ txDeleteLines cfg s) := by
  simp only [buildTxs, h, if_true]
  rw [List.flatten_append, flatten_opt, flatten_opt]

theorem chainDiffLines_chain (c : String) (delPos : Nat) :
    ∀ prev cur n l, l ∈ chainDiffLines c delPos prev cur n → l.chain = c := by
  intro prev
  induction prev with
  | nil =>
    intro cur
    induction cur with
    | nil =>
      intro n l h
      simp [chainDiffLines] at h
    | cons q qs ih =>
      intro n l h
      obtain ⟨qh, qr⟩ := q
      simp only [chainDiffLines, List.mem_cons] at h
      rcases h with h | h
      · subst h
        rfl
      · exact ih (n + 1) l h
  | cons p ps ih =>
    intro cur n l h
    cases cur with
    | nil =>
      simp only [chainDiffLines, List.mem_cons] at h
      rcases h with h | h
      · subst h
        rfl
      · exact ih [] (n + 1) l h
    | cons q qs =>
      obtain ⟨qh, qr⟩ := q
      simp only [chainDiffLines, List.mem_append] at h
      rcases h with h | h
      · by_cases hpq : p = qh
        · simp [hpq] at h
        · simp only [if_neg hpq, List.mem_singleton] at h
          subst h
          rfl
      · exact ih qs (n + 1) l h

theorem chainUpdateLines_chain (cfg : Config) (s : TableState) (c2 : String) :
    ∀ l ∈ chainUpdateLines cfg s c2, l.chain = c2 := by
  intro l h
  cases hm : mapGet s.chainNameToChain c2 with
  | none =>
    simp [chainUpdateLines, hm] at h
  | some rules =>
    simp only [chainUpdateLines, hm] at h
    exact chainDiffLines_chain c2 _ _ _ _ l h

theorem insertChainLines_chain (cfg : Config) (s : TableState) (c2 : String) :
    ∀ l ∈ insertChainLines cfg s c2, l.chain = c2 := by
  intro l h
  simp only [insertChainLines] at h
  split at h
  · cases h
  · rcases List.mem_append.mp h with h1 | h1
    · obtain ⟨p, hp, hpe⟩ := List.mem_filterMap.mp h1
      by_cases hz : p.2 = ""
      · simp [hz] at hpe
      · simp only [if_neg hz, Option.some.injEq] at hpe
        subst hpe
        rfl
    · split at h1
      · obtain ⟨q, hq, hqe⟩ := List.mem_map.mp (List.mem_reverse.mp h1)
        subst hqe
        rfl
      · obtain ⟨q, hq, hqe⟩ := List.mem_map.mp h1
        subst hqe
        rfl

theorem mem_filteredDirtyChains (cfg : Config) (s : TableState) (c : String)
    (h : c ∈ filteredDirtyChains cfg s) : c ∈ s.dirtyChains := by
  unfold filteredDirtyChains at h
  split at h
  · exact (List.mem_filter.mp h).1
  · exact h

theorem filteredDirtyChains_legacy (cfg : Config) (s : TableState)
    (h : cfg.nftablesMode = false) :
    filteredDirtyChains cfg s = s.dirtyChains := by
  simp [filteredDirtyChains, h]

theorem linesFor_nil_of_chains (c : String) (ls : List Line)
    (h : ∀ l ∈ ls, l.chain ≠ c) : linesFor c ls = [] := by
  induction ls with
  | nil => rfl
  | cons a t ih =>
    have ha : (a.chain == c) = false := by
      simp only [beq_eq_false_iff_ne, ne_eq]
      exact h a (List.mem_cons_self a t)
    simp only [linesFor, List.filter_cons, ha, Bool.false_eq_true, if_false]
    exact ih (fun l hl => h l (List.mem_cons_of_mem a hl))

theorem linesFor_all_of_chains (c : String) (ls : List Line)
    (h : ∀ l ∈ ls, l.chain = c) : linesFor c ls = ls := by
  induction ls with
  | nil => rfl
  | cons a t ih =>
    have ha : (a.chain == c) = true := by
      simp only [beq_iff_eq]
      exact h a (List.mem_cons_self a t)
    simp only [linesFor, List.filter_cons, ha, if_true]
    have ht := ih (fun l hl => h l (List.mem_cons_of_mem a hl))
    simp only [linesFor] at ht
    rw [ht]

theorem linesFor_flatMap_nil (c : String) (f : String → List Line)
    (hf : ∀ c2 l, l ∈ f c2 → l.chain = c2) :
    ∀ t : List String, c ∉ t → linesFor c (t.flatMap f) = [] := by
  intro t
  induction t with
  | nil =>
    intro _
    rfl
  | cons a r ih =>
    intro h
    have hac : a ≠ c := fun he => h (he ▸ List.mem_cons_self a r)
    simp only [List.flatMap_cons, linesFor, List.filter_append]
    have h1 : linesFor c (f a) = [] := by
      apply linesFor_nil_of_chains
      intro l hl
      rw [hf a l hl]
      exact hac
    have h2 : linesFor c (r.flatMap f) = [] :=
      ih (fun hm => h (List.mem_cons_of_mem a hm))
    simp only [linesFor] at h1 h2
    rw [h1, h2]
    rfl

theorem linesFor_flatMap (c : String) (f : String → List Line)
    (hf : ∀ c2 l, l ∈ f c2 → l.chain = c2) :
    ∀ names : List String, names.Nodup → c ∈ names →
      linesFor c (names.flatMap f) = f c := by
  intro names
  induction names with
  | nil =>
    intro _ h
    cases h
  | cons a t ih =>
    intro hnd hc
    simp only [List.flatMap_cons, linesFor, List.filter_append]
    by_cases hac : a = c
    · subst hac
      have h1 : linesFor a (f a) = f a :=
        linesFor_all_of_chains a (f a) (fun l hl => hf a l hl)
      have h2 : linesFor a (t.flatMap f) = [] :=
        linesFor_flatMap_nil a f hf t (List.nodup_cons.mp hnd).1
      simp only [linesFor] at h1 h2
      rw [h1, h2]
      simp
    · have h1 : linesFor c (f a) = [] := by
        apply linesFor_nil_of_chains
        intro l hl
        rw [hf a l hl]
        exact hac
      have hct : c ∈ t := by
        rcases List.mem_cons.mp hc with h2 | h2
        · exact absurd h2.symm hac
        · exact h2
      have h2 := ih (List.nodup_cons.mp hnd).2 hct
      simp only [linesFor] at h1 h2
      rw [h1, h2]
      rfl

/- ------------------------------------------------------------------ -/
/- Claim C4: one changed rule gives one replace line                   -/
/- ------------------------------------------------------------------ -/

theorem chainDiffLines_eqnil (c : String) (delPos : Nat) :
    ∀ (prev cur : List String) (rules : List Rule) (n : Nat),
      cur.length = prev.length → rules.length = prev.length →
      (∀ j, j < prev.length → cur.get? j = prev.get? j) →
      chainDiffLines c delPos prev (cur.zip rules) n = [] := by
  intro prev
  induction prev with
  | nil =>
    intro cur rules n h1 h2 _
    rw [List.length_eq_zero.mp h1]
    simp [chainDiffLines]
  | cons p ps ih =>
    intro cur rules n h1 h2 hdiff
    cases cur with
    | nil => simp at h1
    | cons q qs =>
      cases rules with
      | nil => simp at h2
      | cons r rs =>
        have hq : q = p := by
          have h0 := hdiff 0 (by simp)
          simpa using h0
        simp only [List.zip_cons_cons, chainDiffLines, if_pos hq.symm]
        have htail := ih qs rs (n + 1) (by simpa using h1) (by simpa using h2)
          (fun j hj => by simpa using hdiff (j + 1) (by simpa using hj))
        simp [htail]

theorem chainDiffLines_single (c : String) (delPos : Nat) :
    ∀ (prev cur : List String) (rules : List Rule) (n i : Nat),
      cur.length = prev.length → rules.length = prev.length →
      i < prev.length →
      (∀ j, j < prev.length → j ≠ i → cur.get? j = prev.get? j) →
      cur.get? i ≠ prev.get? i →
      chainDiffLines c delPos prev (cur.zip rules) n
        = [Line.replaceRule c (n + i) (cur.getD i "") (rules.getD i ⟨""⟩)] := by
  intro prev
  induction prev with
  | nil =>
    intro cur rules n i h1 h2 hi hdiff hne
    exact absurd hi (by simp)
  | cons p ps ih =>
    intro cur rules n i h1 h2 hi hdiff hne
    cases cur with
    | nil => simp at h1
    | cons q qs =>
      cases rules with
      | nil => simp at h2
      | cons r rs =>
        simp only [List.zip_cons_cons, chainDiffLines]
        cases i with
        | zero =>
          have hq : ¬ p = q := by
            intro he
            apply hne
            simp [he]
          rw [if_neg hq]
          have htail : chainDiffLines c delPos ps (qs.zip rs) (n + 1) = [] := by
            apply chainDiffLines_eqnil c delPos ps qs rs (n + 1)
              (by simpa using h1) (by simpa using h2)
            intro j hj
            have := hdiff (j + 1) (by simpa using hj) (by omega)
            simpa using this
          rw [htail]
          simp
        | succ i2 =>
          have hq : q = p := by
            have h0 := hdiff 0 (by simp) (by omega)
            simpa using h0
          rw [if_pos hq.symm]
          have htail := ih qs rs (n + 1) i2 (by simpa using h1)
            (by simpa using h2)
            (by simp only [List.length_cons] at hi; omega)
            (fun j hj hji => by
              have := hdiff (j + 1) (by simpa using hj) (by omega)
              simpa using this)
            (by
              intro hcon
              apply hne
              simpa using hcon)
          rw [htail]
          simp only [List.nil_append]
          have harith : n + 1 + i2 = n + (i2 + 1) := by omega
          rw [harith]
          rfl

/-- A state with one dirty owned chain of length three whose middle rule
changed relative to the dataplane cache. -/
def sC4 : TableState where
  chainToInsertedRules := []
  dirtyInserts := []
  chainNameToChain := [("cali-w", [⟨"x"⟩, ⟨"y"⟩, ⟨"z"⟩])]
  dirtyChains := ["cali-w"]
  inSyncWithDataPlane := true
  chainToDataplaneHashes := [("cali-w", ["cali-w|x", "cali-w|q", "cali-w|z"])]
  lastReadTime := 0
  lastWriteTime := 0
  initialPostWriteInterval := 50000000
  postWriteInterval := 50000000
  refreshInterval := 0

/-- Claim C4: in legacy backend mode, for a dirty owned chain present in
the dataplane cache with N rules whose hashes differ from the cached ones
at exactly position i, the transaction's content for that chain is exactly
one replace line at 1-indexed position i+1: no forward-reference/flush and
no lines for the other N-1 positions. -/
theorem legacy_single_rule_diff (cfg : Config) (s : TableState)
    (c : String) (rules : List Rule) (prev : List String) (i : Nat)
    (hnft : cfg.nftablesMode = false)
    (hnd : s.dirtyChains.Nodup)
    (hc : c ∈ s.dirtyChains)
    (hni : c ∉ s.dirtyInserts)
    (hchain : mapGet s.chainNameToChain c = some rules)
    (hprev : mapGet s.chainToDataplaneHashes c = some prev)
    (hlen : (cfg.ruleHashes c rules).length = prev.length)
    (hrl : rules.length = prev.length)
    (hi : i < prev.length)
    (hdiff : ∀ j ∈ List.range prev.length,
      j ≠ i → (cfg.ruleHashes c rules).get? j = prev.get? j)
    (hne : (cfg.ruleHashes c rules).get? i ≠ prev.get? i) :
    linesFor c ((buildTxs cfg s).flatten)
      = [Line.replaceRule c (i + 1) ((cfg.ruleHashes c rules).getD i "")
          (rules.getD i ⟨""⟩)] := by
  rw [buildTxs_flatten_legacy cfg s hnft]
  simp only [linesFor, List.filter_append]
  have hflush : linesFor c (txFlushLines cfg s) = [] := by
    apply linesFor_nil_of_chains
    intro l hl
    obtain ⟨c2, hc2, hc2e⟩ := List.mem_map.mp hl
    subst hc2e
    intro he
    have hcc : c2 = c := he
    subst hcc
    have hc2f := (List.mem_filter.mp hc2).2
    simp [needsFlush, hnft, hchain, hprev] at hc2f
  have hupd : linesFor c (txUpdateLines cfg s) = chainUpdateLines cfg s c := by
    unfold txUpdateLines
    rw [filteredDirtyChains_legacy cfg s hnft]
    exact linesFor_flatMap c (chainUpdateLines cfg s)
      (chainUpdateLines_chain cfg s) s.dirtyChains hnd hc
  have hins : linesFor c (txInsertLines cfg s) = [] := by
    unfold txInsertLines
    exact linesFor_flatMap_nil c (insertChainLines cfg s)
      (insertChainLines_chain cfg s) s.dirtyInserts hni
  have hdel : linesFor c (txDeleteLines cfg s) = [] := by
    apply linesFor_nil_of_chains
    intro l hl
    obtain ⟨c2, hc2, hc2e⟩ := List.mem_map.mp hl
    subst hc2e
    intro he
    have hcc : c2 = c := he
    subst hcc
    have hc2f := (List.mem_filter.mp hc2).2
    simp [hchain] at hc2f
  simp only [linesFor] at hflush hupd hins hdel
  rw [hflush, hupd, hins, hdel]
  simp only [List.nil_append, List.append_nil]
  simp only [chainUpdateLines, hchain, hnft, Bool.false_eq_true, if_false,
    hprev, Option.getD_some]
  have := chainDiffLines_single c ((cfg.ruleHashes c rules).length + 1)
    prev (cfg.ruleHashes c rules) rules 1 i hlen hrl hi
    (fun j hj hji => hdiff j (List.mem_range.mpr hj) hji) hne
  rw [this]
  have harith : 1 + i = i + 1 := by omega
  rw [harith]

theorem legacy_single_rule_diff_witness :
    linesFor "cali-w" ((buildTxs cfgLegacy sC4).flatten)
      = [Line.replaceRule "cali-w" (1 + 1)
          ((cfgLegacy.ruleHashes "cali-w" [⟨"x"⟩, ⟨"y"⟩, ⟨"z"⟩]).getD 1 "")
          ([Rule.mk "x", Rule.mk "y", Rule.mk "z"].getD 1 ⟨""⟩)] :=
  legacy_single_rule_diff cfgLegacy sC4 "cali-w" [⟨"x"⟩, ⟨"y"⟩, ⟨"z"⟩]
    ["cali-w|x", "cali-w|q", "cali-w|z"] 1 (by decide) (by decide) (by decide)
    (by decide) (by decide) (by decide) (by decide) (by decide) (by decide)
    (by decide) (by decide)

/- ------------------------------------------------------------------ -/
/- Claim C7: chain deletions never target kernel chains                -/
/- ------------------------------------------------------------------ -/

theorem mem_addName (l : List String) (c x : String) :
    x ∈ addName l c ↔ x ∈ l ∨ x = c := by
  unfold addName
  split
  · next h =>
    constructor
    · exact Or.inl
    · rintro (hx | rfl)
      · exact hx
      · exact h
  · simp [List.mem_append]

theorem chainDiffLines_no_delchain (c : String) (delPos : Nat) :
    ∀ prev cur n c2, Line.deleteChain c2 ∉ chainDiffLines c delPos prev cur n := by
  intro prev
  induction prev with
  | nil =>
    intro cur
    induction cur with
    | nil =>
      intro n c2 h
      simp [chainDiffLines] at h
    | cons q qs ih =>
      intro n c2 h
      obtain ⟨qh, qr⟩ := q
      simp only [chainDiffLines, List.mem_cons] at h
      rcases h with h | h
      · simp at h
      · exact ih (n + 1) c2 h
  | cons p ps ih =>
    intro cur n c2 h
    cases cur with
    | nil =>
      simp only [chainDiffLines, List.mem_cons] at h
      rcases h with h | h
      · simp at h
      · exact ih [] (n + 1) c2 h
    | cons q qs =>
      obtain ⟨qh, qr⟩ := q
      simp only [chainDiffLines, List.mem_append] at h
      rcases h with h | h
      · by_cases hpq : p = qh
        · simp [hpq] at h
        · simp only [if_neg hpq, List.mem_singleton] at h
          simp at h
      · exact ih qs (n + 1) c2 h

theorem chainUpdateLines_no_delchain (cfg : Config) (s : TableState)
    (c2 c3 : String) : Line.deleteChain c3 ∉ chainUpdateLines cfg s c2 := by
  intro h
  cases hm : mapGet s.chainNameToChain c2 with
  | none => simp [chainUpdateLines, hm] at h
  | some rules =>
    simp only [chainUpdateLines, hm] at h
    exact chainDiffLines_no_delchain c2 _ _ _ _ c3 h

theorem insertChainLines_no_delchain (cfg : Config) (s : TableState)
    (c2 c3 : String) : Line.deleteChain c3 ∉ insertChainLines cfg s c2 := by
  intro h
  simp only [insertChainLines] at h
  split at h
  · cases h
  · rcases List.mem_append.mp h with h1 | h1
    · obtain ⟨p, hp, hpe⟩ := List.mem_filterMap.mp h1
      by_cases hz : p.2 = ""
      · simp [hz] at hpe
      · simp only [if_neg hz, Option.some.injEq] at hpe
        simp at hpe
    · split at h1
      · obtain ⟨q, hq, hqe⟩ := List.mem_map.mp (List.mem_reverse.mp h1)
        simp at hqe
      · obtain ⟨q, hq, hqe⟩ := List.mem_map.mp h1
        simp at hqe

theorem mem_txDeleteLines (cfg : Config) (s : TableState) (c : String)
    (h : Line.deleteChain c ∈ txDeleteLines cfg s) :
    c ∈ s.dirtyChains ∧ mapGet s.chainNameToChain c = none := by
  obtain ⟨c2, hc2, hc2e⟩ := List.mem_map.mp h
  have hcc : c2 = c := by
    simpa using hc2e
  subst hcc
  have h1 := List.mem_filter.mp hc2
  refine ⟨mem_filteredDirtyChains cfg s c2 h1.1, ?_⟩
  have h2 := h1.2
  simpa [Option.isNone_iff_eq_none] using h2

theorem no_flush_delchain (cfg : Config) (s : TableState) (c : String)
    (names : List String) :
    Line.deleteChain c ∉ names.map Line.forwardRef := by
  intro h
  obtain ⟨c2, _, hc2e⟩ := List.mem_map.mp h
  simp at hc2e

theorem no_update_delchain (cfg : Config) (s : TableState) (c : String) :
    Line.deleteChain c ∉ txUpdateLines cfg s := by
  intro h
  obtain ⟨c2, _, hmem⟩ := List.mem_flatMap.mp h
  exact chainUpdateLines_no_delchain cfg s c2 c hmem

theorem no_insert_delchain (cfg : Config) (s : TableState) (c : String) :
    Line.deleteChain c ∉ txInsertLines cfg s := by
  intro h
  obtain ⟨c2, _, hmem⟩ := List.mem_flatMap.mp h
  exact insertChainLines_no_delchain cfg s c2 c hmem

theorem loadCheckOne_dirtyChains_sub (cfg : Config)
    (dp : List (String × List String)) (k : String) (v : List String)
    (st : TableState) (x : String)
    (h : x ∈ (loadCheckOne cfg dp k v st).dirtyChains) :
    x ∈ st.dirtyChains ∨ (x = k ∧ cfg.ourChains k = true) := by
  simp only [loadCheckOne] at h
  split at h
  · exact Or.inl h
  · split at h
    · next hours =>
      split at h
      · exact Or.inl h
      · rcases (mem_addName _ _ _).mp h with h2 | h2
        · exact Or.inl h2
        · exact Or.inr ⟨h2, hours⟩
    · split at h
      · split at h
        · exact Or.inl h
        · exact Or.inl h
      · split at h
        · exact Or.inl h
        · exact Or.inl h

theorem loadScanOne_dirtyChains_sub (cfg : Config)
    (oldHashes : List (String × List String)) (k : String)
    (v : List String) (st : TableState) (x : String)
    (h : x ∈ (loadScanOne cfg oldHashes k v st).dirtyChains) :
    x ∈ st.dirtyChains ∨ (x = k ∧ cfg.ourChains k = true) := by
  simp only [loadScanOne] at h
  split at h
  · exact Or.inl h
  · split at h
    · exact Or.inl h
    · split at h
      · next hours =>
        rcases (mem_addName _ _ _).mp h with h2 | h2
        · exact Or.inl h2
        · exact Or.inr ⟨h2, hours⟩
      · split at h
        · exact Or.inl h
        · exact Or.inl h

theorem foldl_check_dirtyChains (cfg : Config)
    (dp : List (String × List String)) :
    ∀ (entries : List (String × List String)) (st : TableState) (x : String),
      x ∈ (entries.foldl (fun st2 p => loadCheckOne cfg dp p.1 p.2 st2)
        st).dirtyChains →
      x ∈ st.dirtyChains ∨ cfg.ourChains x = true := by
  intro entries
  induction entries with
  | nil =>
    intro st x h
    exact Or.inl h
  | cons e rest ih =>
    intro st x h
    simp only [List.foldl_cons] at h
    rcases ih (loadCheckOne cfg dp e.1 e.2 st) x h with h1 | h1
    · rcases loadCheckOne_dirtyChains_sub cfg dp e.1 e.2 st x h1
        with h2 | ⟨he, h2⟩
      · exact Or.inl h2
      · subst he
        exact Or.inr h2
    · exact Or.inr h1

theorem foldl_scan_dirtyChains (cfg : Config)
    (oldHashes : List (String × List String)) :
    ∀ (entries : List (String × List String)) (st : TableState) (x : String),
      x ∈ (entries.foldl (fun st2 p => loadScanOne cfg oldHashes p.1 p.2 st2)
        st).dirtyChains →
      x ∈ st.dirtyChains ∨ cfg.ourChains x = true := by
  intro entries
  induction entries with
  | nil =>
    intro st x h
    exact Or.inl h
  | cons e rest ih =>
    intro st x h
    simp only [List.foldl_cons] at h
    rcases ih (loadScanOne cfg oldHashes e.1 e.2 st) x h with h1 | h1
    · rcases loadScanOne_dirtyChains_sub cfg oldHashes e.1 e.2 st x h1
        with h2 | ⟨he, h2⟩
      · exact Or.inl h2
      · subst he
        exact Or.inr h2
    · exact Or.inr h1

/-- Claim C7: a --delete-chain line is only ever emitted for a chain in the
dirty-chains set with no desired chain, and loadDataplaneState only ever
adds chains matching the "ours" naming pattern to the dirty-chains set (a
non-ours chain can only land in dirty-inserts there); hence a
kernel-created top-level chain, which never matches the pattern, is never
deleted by a transaction built from reconciler-made dirty state. -/
theorem no_kernel_chain_delete :
    (∀ (cfg : Config) (s : TableState) (c : String),
        Line.deleteChain c ∈ (buildTxs cfg s).flatten →
        c ∈ s.dirtyChains ∧ mapGet s.chainNameToChain c = none)
    ∧ (∀ (cfg : Config) (now : Int) (dp : List (String × List String))
        (s : TableState) (c : String),
        c ∈ (loadDataplaneState cfg now dp s).dirtyChains →
        c ∈ s.dirtyChains ∨ cfg.ourChains c = true) := by
  constructor
  · intro cfg s c h
    apply mem_txDeleteLines cfg s c
    by_cases hn : cfg.nftablesMode = true
    · rw [buildTxs_flatten_nft cfg s hn] at h
      rcases List.mem_append.mp h with h1 | h1
      · exfalso
        rcases List.mem_append.mp h1 with h2 | h2
        · rcases List.mem_append.mp h2 with h3 | h3
          · exact no_flush_delchain cfg s c _ h3
          · exact no_update_delchain cfg s c h3
        · exact no_insert_delchain cfg s c h2
      · rcases List.mem_append.mp h1 with h2 | h2
        · exact absurd h2 (no_flush_delchain cfg s c _)
        · exact h2
    · rw [buildTxs_flatten_legacy cfg s (by simpa using hn)] at h
      rcases List.mem_append.mp h with h1 | h1
      · exfalso
        rcases List.mem_append.mp h1 with h2 | h2
        · rcases List.mem_append.mp h2 with h3 | h3
          · exact no_flush_delchain cfg s c _ h3
          · exact no_update_delchain cfg s c h3
        · exact no_insert_delchain cfg s c h2
      · exact h1
  · intro cfg now dp s c h
    unfold loadDataplaneState at h
    have h1 := foldl_scan_dirtyChains cfg s.chainToDataplaneHashes dp _ c h
    rcases h1 with h1 | h1
    · exact foldl_check_dirtyChains cfg dp s.chainToDataplaneHashes s c h1
    · exact Or.inr h1

/-- A state whose only dirty chain is an owned chain slated for
deletion. -/
def sDel : TableState where
  chainToInsertedRules := []
  dirtyInserts := []
  chainNameToChain := []
  dirtyChains := ["cali-old"]
  inSyncWithDataPlane := true
  chainToDataplaneHashes := [("cali-old", ["cali-old|g"])]
  lastReadTime := 0
  lastWriteTime := 0
  initialPostWriteInterval := 50000000
  postWriteInterval := 50000000
  refreshInterval := 0

theorem no_kernel_chain_delete_witness :
    Line.deleteChain "cali-old" ∈ (buildTxs cfgLegacy sDel).flatten ∧
    ("cali-old" ∈ sDel.dirtyChains ∧
      mapGet sDel.chainNameToChain "cali-old" = none) :=
  ⟨by decide, no_kernel_chain_delete.1 cfgLegacy sDel "cali-old" (by decide)⟩

/- ------------------------------------------------------------------ -/
/- Claim C5: insertion expectations recomputed from foreign-rule count -/
/- ------------------------------------------------------------------ -/

theorem set_append_right_my (v : String) :
    ∀ (pre acc : List String) (i : Nat),
      (pre ++ acc).set (pre.length + i) v = pre ++ acc.set i v := by
  intro pre
  induction pre with
  | nil =>
    intro acc i
    simp
  | cons a t ih =>
    intro acc i
    simp only [List.cons_append, List.length_cons]
    have hh : t.length + 1 + i = (t.length + i) + 1 := by omega
    rw [hh]
    simp only [List.set]
    rw [ih]

theorem writeAt_fill (hs : List String) :
    ∀ (pre tail : List String),
      writeAt (pre ++ (List.replicate hs.length "" ++ tail)) pre.length hs
        = pre ++ hs ++ tail := by
  induction hs with
  | nil =>
    intro pre tail
    simp [writeAt]
  | cons h t ih =>
    intro pre tail
    simp only [List.length_cons, List.replicate_succ, List.cons_append, writeAt]
    have hset : (pre ++ ("" :: (List.replicate t.length "" ++ tail))).set
        pre.length h = pre ++ (h :: (List.replicate t.length "" ++ tail)) := by
      have h0 := set_append_right_my h pre
        ("" :: (List.replicate t.length "" ++ tail)) 0
      simpa using h0
    rw [hset]
    have hres : pre ++ (h :: (List.replicate t.length "" ++ tail))
        = (pre ++ [h]) ++ (List.replicate t.length "" ++ tail) := by simp
    have hlen : pre.length + 1 = (pre ++ [h]).length := by simp
    rw [hres, hlen, ih (pre ++ [h]) tail]
    simp

theorem expected_congr (cfg : Config) (s1 s2 : TableState) (c : String)
    (n : Nat) (h : s1.chainToInsertedRules = s2.chainToInsertedRules) :
    expectedHashesForInsertChain cfg s1 c n
      = expectedHashesForInsertChain cfg s2 c n := by
  simp [expectedHashesForInsertChain, h]

theorem loadCheckOne_inserts_frame (cfg : Config)
    (dp : List (String × List String)) (k : String) (v : List String)
    (st : TableState) :
    (loadCheckOne cfg dp k v st).chainToInsertedRules
      = st.chainToInsertedRules := by
  simp only [loadCheckOne]
  split_ifs <;> rfl

theorem loadCheckOne_dirtyInserts_mono (cfg : Config)
    (dp : List (String × List String)) (k : String) (v : List String)
    (st : TableState) (x : String) (hx : x ∈ st.dirtyInserts) :
    x ∈ (loadCheckOne cfg dp k v st).dirtyInserts := by
  simp only [loadCheckOne]
  split_ifs <;>
    first
      | exact hx
      | exact (mem_addName _ _ _).mpr (Or.inl hx)

theorem loadScanOne_dirtyInserts_mono (cfg : Config)
    (oldHashes : List (String × List String)) (k : String)
    (v : List String) (st : TableState) (x : String)
    (hx : x ∈ st.dirtyInserts) :
    x ∈ (loadScanOne cfg oldHashes k v st).dirtyInserts := by
  simp only [loadScanOne]
  split_ifs <;>
    first
      | exact hx
      | exact (mem_addName _ _ _).mpr (Or.inl hx)

theorem foldl_check_dirtyInserts_mono (cfg : Config)
    (dp : List (String × List String)) :
    ∀ (entries : List (String × List String)) (st : TableState) (x : String),
      x ∈ st.dirtyInserts →
      x ∈ (entries.foldl (fun st2 p => loadCheckOne cfg dp p.1 p.2 st2)
        st).dirtyInserts := by
  intro entries
  induction entries with
  | nil =>
    intro st x hx
    exact hx
  | cons e rest ih =>
    intro st x hx
    simp only [List.foldl_cons]
    exact ih _ x (loadCheckOne_dirtyInserts_mono cfg dp e.1 e.2 st x hx)

theorem foldl_scan_dirtyInserts_mono (cfg : Config)
    (oldHashes : List (String × List String)) :
    ∀ (entries : List (String × List String)) (st : TableState) (x : String),
      x ∈ st.dirtyInserts →
      x ∈ (entries.foldl (fun st2 p => loadScanOne cfg oldHashes p.1 p.2 st2)
        st).dirtyInserts := by
  intro entries
  induction entries with
  | nil =>
    intro st x hx
    exact hx
  | cons e rest ih =>
    intro st x hx
    simp only [List.foldl_cons]
    exact ih _ x (loadScanOne_dirtyInserts_mono cfg oldHashes e.1 e.2 st x hx)

theorem foldl_check_marks (cfg : Config) (dp : List (String × List String)) :
    ∀ (entries : List (String × List String)) (st : TableState)
      (c : String) (prev : List String),
      mapGet entries c = some prev →
      c ∉ st.dirtyChains →
      cfg.ourChains c = false →
      (mapGet st.chainToInsertedRules c).getD [] ≠ [] →
      (mapGet dp c).getD []
        ≠ (expectedHashesForInsertChain cfg st c
            (numEmptyStrings ((mapGet dp c).getD []))).1 →
      c ∈ (entries.foldl (fun st2 p => loadCheckOne cfg dp p.1 p.2 st2)
        st).dirtyInserts := by
  intro entries
  induction entries with
  | nil =>
    intro st c prev hm
    simp [mapGet] at hm
  | cons e rest ih =>
    intro st c prev hm hdc hours hne hmis
    obtain ⟨k, v⟩ := e
    simp only [List.foldl_cons]
    by_cases hkc : k = c
    · subst hkc
      apply foldl_check_dirtyInserts_mono
      simp only [loadCheckOne]
      by_cases hskip : k ∈ st.dirtyChains ∨ k ∈ st.dirtyInserts
      · rcases hskip with h1 | h1
        · exact absurd h1 hdc
        · rw [if_pos (Or.inr h1)]
          exact h1
      · rw [if_neg hskip]
        rw [if_neg (by simp [hours])]
        rw [if_neg (by simpa [List.isEmpty_iff] using hne)]
        rw [if_neg hmis]
        exact (mem_addName _ _ _).mpr (Or.inr rfl)
    · have hm2 : mapGet rest c = some prev := by
        simpa [mapGet, hkc] using hm
      have hframe := loadCheckOne_inserts_frame cfg dp k v st
      apply ih (loadCheckOne cfg dp k v st) c prev hm2
      · intro hc2
        rcases loadCheckOne_dirtyChains_sub cfg dp k v st c hc2
          with h2 | ⟨he, _⟩
        · exact hdc h2
        · exact hkc he.symm
      · exact hours
      · rw [hframe]
        exact hne
      · rw [expected_congr cfg (loadCheckOne cfg dp k v st) st c _ hframe]
        exact hmis

/-- Claim C5: the expected fingerprint list for an insertion-target chain
is a function of the current count n of non-ours (empty) fingerprints
read back: our hashes followed by n empty strings in insert mode, n empty
strings followed by our hashes in append mode (no dependence on any
previously assumed offset); and during a reload, a known non-ours chain
with a non-empty insertion list whose read-back differs from that
recomputed expectation is marked dirty in the dirty-inserts set. -/
theorem insert_expected_recompute :
    (∀ (cfg : Config) (s : TableState) (c : String) (n : Nat),
      (cfg.ruleHashes c ((mapGet s.chainToInsertedRules c).getD [])).length
          = ((mapGet s.chainToInsertedRules c).getD []).length →
      (expectedHashesForInsertChain cfg s c n).1
        = (if cfg.insertMode = InsertMode.append
           then List.replicate n ""
             ++ cfg.ruleHashes c ((mapGet s.chainToInsertedRules c).getD [])
           else cfg.ruleHashes c ((mapGet s.chainToInsertedRules c).getD [])
             ++ List.replicate n ""))
    ∧ (∀ (cfg : Config) (now : Int) (dp : List (String × List String))
        (s : TableState) (c : String) (prev : List String),
        mapGet s.chainToDataplaneHashes c = some prev →
        c ∉ s.dirtyChains →
        cfg.ourChains c = false →
        (mapGet s.chainToInsertedRules c).getD [] ≠ [] →
        (mapGet dp c).getD []
          ≠ (expectedHashesForInsertChain cfg s c
              (numEmptyStrings ((mapGet dp c).getD []))).1 →
        c ∈ (loadDataplaneState cfg now dp s).dirtyInserts) := by
  constructor
  · intro cfg s c n hlen
    by_cases hm : cfg.insertMode = InsertMode.append
    · simp only [expectedHashesForInsertChain, hm, if_pos]
      rw [Nat.add_comm ((mapGet s.chainToInsertedRules c).getD []).length n]
      rw [List.replicate_add, ← hlen]
      have h0 := writeAt_fill
        (cfg.ruleHashes c ((mapGet s.chainToInsertedRules c).getD []))
        (List.replicate n "") []
      simp only [List.append_nil, List.length_replicate] at h0
      rw [h0]
    · simp only [expectedHashesForInsertChain, hm, if_neg, if_false]
      rw [List.replicate_add, ← hlen]
      have h0 := writeAt_fill
        (cfg.ruleHashes c ((mapGet s.chainToInsertedRules c).getD []))
        [] (List.replicate n "")
      simpa using h0
  · intro cfg now dp s c prev hm hdc hours hne hmis
    show c ∈ (dp.foldl
      (fun st p => loadScanOne cfg s.chainToDataplaneHashes p.1 p.2 st)
      (s.chainToDataplaneHashes.foldl
        (fun st p => loadCheckOne cfg dp p.1 p.2 st) s)).dirtyInserts
    apply foldl_scan_dirtyInserts_mono
    exact foldl_check_marks cfg dp s.chainToDataplaneHashes s c prev
      hm hdc hours hne hmis

/-- An insertion-target chain whose read-back shows one foreign rule
prepended relative to the cache. -/
def sC5 : TableState where
  chainToInsertedRules := [("FORWARD", [⟨"f"⟩])]
  dirtyInserts := []
  chainNameToChain := []
  dirtyChains := []
  inSyncWithDataPlane := false
  chainToDataplaneHashes := [("FORWARD", ["FORWARD|f", ""])]
  lastReadTime := 0
  lastWriteTime := 0
  initialPostWriteInterval := 50000000
  postWriteInterval := 50000000
  refreshInterval := 0

/-- The read-back after foreign tooling prepends one rule to FORWARD. -/
def dpC5 : List (String × List String) := [("FORWARD", ["", "FORWARD|f", ""])]

theorem insert_expected_recompute_witness :
    "FORWARD" ∈ (loadDataplaneState cfgLegacy 0 dpC5 sC5).dirtyInserts :=
  insert_expected_recompute.2 cfgLegacy 0 dpC5 sC5 "FORWARD" ["FORWARD|f", ""]
    (by decide) (by decide) (by decide) (by decide) (by decide)

/- ------------------------------------------------------------------ -/
/- Claim C3: idempotence of Apply without drift                        -/
/- ------------------------------------------------------------------ -/

/-- The invariant linking cached hash lists of non-ours chains to the
recomputed insertion expectations; it holds of every cache the reconciler
itself writes and is what makes a drift-free reload quiescent. -/
def nonOursConsistent (cfg : Config) (s : TableState) : Prop :=
  ∀ c hs, mapGet s.chainToDataplaneHashes c = some hs →
    cfg.ourChains c = false →
    hs = (expectedHashesForInsertChain cfg s c (numEmptyStrings hs)).1

theorem mapGet_mem {α : Type} :
    ∀ (l : List (String × α)) (c : String) (v : α),
      mapGet l c = some v → (c, v) ∈ l := by
  intro l
  induction l with
  | nil =>
    intro c v h
    simp [mapGet] at h
  | cons e rest ih =>
    intro c v h
    obtain ⟨k, w⟩ := e
    by_cases hk : k = c
    · subst hk
      simp only [mapGet, if_pos, Option.some.injEq] at h
      subst h
      exact List.mem_cons_self _ _
    · simp only [mapGet, if_neg hk] at h
      exact List.mem_cons_of_mem _ (ih c v h)

theorem mapGet_of_nodup {α : Type} :
    ∀ (l : List (String × α)), (l.map Prod.fst).Nodup →
      ∀ p ∈ l, mapGet l p.1 = some p.2 := by
  intro l
  induction l with
  | nil =>
    intro _ p hp
    cases hp
  | cons e rest ih =>
    intro hnd p hp
    obtain ⟨k, v⟩ := e
    have hnd1 : (k :: rest.map Prod.fst).Nodup := by simpa using hnd
    have hknot : k ∉ rest.map Prod.fst := (List.nodup_cons.mp hnd1).1
    have hnd2 : (rest.map Prod.fst).Nodup := (List.nodup_cons.mp hnd1).2
    rcases List.mem_cons.mp hp with rfl | hp2
    · simp [mapGet]
    · by_cases hk : k = p.1
      · exfalso
        apply hknot
        rw [hk]
        exact List.mem_map.mpr ⟨p, hp2, rfl⟩
      · simp only [mapGet, if_neg hk]
        exact ih hnd2 p hp2

theorem mapGet_isSome_of_mem {α : Type} :
    ∀ (l : List (String × α)) (p : String × α),
      p ∈ l → (mapGet l p.1).isSome = true := by
  intro l
  induction l with
  | nil =>
    intro p hp
    cases hp
  | cons e rest ih =>
    intro p hp
    obtain ⟨k, v⟩ := e
    by_cases hk : k = p.1
    · simp [mapGet, hk]
    · simp only [mapGet, if_neg hk]
      rcases List.mem_cons.mp hp with rfl | hp2
      · exact absurd rfl hk
      · exact ih p hp2

theorem nonOursConsistent_of_entries (cfg : Config) (s : TableState)
    (h : ∀ p ∈ s.chainToDataplaneHashes, cfg.ourChains p.1 = false →
      mapGet s.chainToDataplaneHashes p.1 = some p.2 →
      p.2 = (expectedHashesForInsertChain cfg s p.1
        (numEmptyStrings p.2)).1) :
    nonOursConsistent cfg s := by
  intro c hs h1 h2
  exact h (c, hs) (mapGet_mem _ c hs h1) h2 h1

theorem loadCheckOne_self (cfg : Config) (dp : List (String × List String))
    (k : String) (v : List String) (st : TableState)
    (hdp : mapGet dp k = some v)
    (hcons : cfg.ourChains k = false →
      v = (expectedHashesForInsertChain cfg st k (numEmptyStrings v)).1)
    (hlen : ∀ c rules, (cfg.ruleHashes c rules).length = rules.length) :
    loadCheckOne cfg dp k v st = st := by
  simp only [loadCheckOne, hdp, Option.getD_some]
  by_cases hskip : k ∈ st.dirtyChains ∨ k ∈ st.dirtyInserts
  · rw [if_pos hskip]
  · rw [if_neg hskip]
    by_cases hours : cfg.ourChains k = true
    · simp [hours]
    · have hof : cfg.ourChains k = false := by simpa using hours
      rw [if_neg hours]
      have hv := hcons hof
      by_cases hins : ((mapGet st.chainToInsertedRules k).getD []).isEmpty
      · rw [if_pos hins]
        have hinsnil : (mapGet st.chainToInsertedRules k).getD [] = [] :=
          List.isEmpty_iff.mp hins
        have hournil : cfg.ruleHashes k [] = [] := by
          have h2 := hlen k []
          exact List.length_eq_zero.mp h2
        have hrep : ∀ m : Nat, ((List.replicate m "").any fun h => h != "") = false := by
          intro m
          induction m with
          | zero => rfl
          | succ mm ihm => simp [List.replicate_succ, List.any_cons, ihm]
        have hvrep : v = List.replicate (numEmptyStrings v) "" := by
          conv_lhs => rw [hv]
          simp [expectedHashesForInsertChain, hinsnil, hournil, writeAt]
        have hany : (v.any fun h => h != "") = false := by
          rw [hvrep]
          exact hrep (numEmptyStrings v)
        rw [if_neg (by simp [hany])]
      · rw [if_neg hins]
        rw [if_pos hv]

theorem foldl_check_self (cfg : Config) (dp : List (String × List String)) :
    ∀ (entries : List (String × List String)) (st : TableState),
      (∀ p ∈ entries, mapGet dp p.1 = some p.2) →
      (∀ p ∈ entries, cfg.ourChains p.1 = false →
        p.2 = (expectedHashesForInsertChain cfg st p.1
          (numEmptyStrings p.2)).1) →
      (∀ c rules, (cfg.ruleHashes c rules).length = rules.length) →
      entries.foldl (fun st2 p => loadCheckOne cfg dp p.1 p.2 st2) st = st := by
  intro entries
  induction entries with
  | nil =>
    intro st _ _ _
    rfl
  | cons e rest ih =>
    intro st hdp hcons hlen
    simp only [List.foldl_cons]
    rw [loadCheckOne_self cfg dp e.1 e.2 st
      (hdp e (List.mem_cons_self e rest))
      (hcons e (List.mem_cons_self e rest)) hlen]
    exact ih st (fun p hp => hdp p (List.mem_cons_of_mem e hp))
      (fun p hp => hcons p (List.mem_cons_of_mem e hp)) hlen

theorem loadScanOne_skip (cfg : Config)
    (oldHashes : List (String × List String)) (k : String) (v : List String)
    (st : TableState) (h : (mapGet oldHashes k).isSome = true) :
    loadScanOne cfg oldHashes k v st = st := by
  simp only [loadScanOne]
  by_cases hskip : k ∈ st.dirtyChains ∨ k ∈ st.dirtyInserts
  · rw [if_pos hskip]
  · rw [if_neg hskip, if_pos h]

theorem foldl_scan_self (cfg : Config)
    (oldHashes : List (String × List String)) :
    ∀ (entries : List (String × List String)) (st : TableState),
      (∀ p ∈ entries, (mapGet oldHashes p.1).isSome = true) →
      entries.foldl (fun st2 p => loadScanOne cfg oldHashes p.1 p.2 st2) st
        = st := by
  intro entries
  induction entries with
  | nil =>
    intro st _
    rfl
  | cons e rest ih =>
    intro st hsome
    simp only [List.foldl_cons]
    rw [loadScanOne_skip cfg oldHashes e.1 e.2 st
      (hsome e (List.mem_cons_self e rest))]
    exact ih st (fun p hp => hsome p (List.mem_cons_of_mem e hp))

theorem load_no_drift (cfg : Config) (now : Int) (s : TableState)
    (hnd : (s.chainToDataplaneHashes.map Prod.fst).Nodup)
    (hcons : nonOursConsistent cfg s)
    (hlen : ∀ c rules, (cfg.ruleHashes c rules).length = rules.length) :
    loadDataplaneState cfg now s.chainToDataplaneHashes s
      = { s with lastReadTime := now, inSyncWithDataPlane := true } := by
  simp only [loadDataplaneState]
  rw [foldl_check_self cfg s.chainToDataplaneHashes s.chainToDataplaneHashes s
    (fun p hp => mapGet_of_nodup s.chainToDataplaneHashes hnd p hp)
    (fun p hp hof => hcons p.1 p.2
      (mapGet_of_nodup s.chainToDataplaneHashes hnd p hp) hof) hlen]
  rw [foldl_scan_self cfg s.chainToDataplaneHashes s.chainToDataplaneHashes s
    (fun p hp => mapGet_isSome_of_mem s.chainToDataplaneHashes p hp)]

theorem buildTxs_no_dirty (cfg : Config) (s : TableState)
    (h1 : s.dirtyChains = []) (h2 : s.dirtyInserts = []) :
    buildTxs cfg s = [] := by
  have hf : filteredDirtyChains cfg s = [] := by
    simp [filteredDirtyChains, h1]
  simp [buildTxs, txFlushLines, txUpdateLines, txInsertLines, txDeleteLines,
    deletedChains, hf, h2]

theorem applyLoop_succ (cfg : Config) (env : Env) (fuel : Nat)
    (s : TableState) (n : Nat) :
    applyLoop cfg env (fuel + 1) s n =
      (if (applyUpdates cfg env.restoreOk env.now
            (if s.inSyncWithDataPlane then s
             else loadDataplaneState cfg env.now env.dp s)).ok
       then some ((applyUpdates cfg env.restoreOk env.now
            (if s.inSyncWithDataPlane then s
             else loadDataplaneState cfg env.now env.dp s)).state,
          n + (if (applyUpdates cfg env.restoreOk env.now
            (if s.inSyncWithDataPlane then s
             else loadDataplaneState cfg env.now env.dp s)).invoked
               then 1 else 0))
       else applyLoop cfg env fuel
         (applyUpdates cfg env.restoreOk env.now
            (if s.inSyncWithDataPlane then s
             else loadDataplaneState cfg env.now env.dp s)).state (n + 1)) :=
  rfl

theorem applyUpdates_ok_clears (cfg : Config) (ro : Bool) (now : Int)
    (st : TableState) (h : (applyUpdates cfg ro now st).ok = true) :
    (applyUpdates cfg ro now st).state.dirtyChains = [] ∧
    (applyUpdates cfg ro now st).state.dirtyInserts = [] := by
  by_cases hb : (buildTxs cfg st).isEmpty
  · simp [applyUpdates, hb]
  · by_cases hr : ro = true
    · simp [applyUpdates, hb, hr]
    · simp only [Bool.not_eq_true] at hr
      simp [applyUpdates, hb, hr] at h

theorem applyLoop_dirty_empty (cfg : Config) (env : Env) :
    ∀ (fuel : Nat) (s : TableState) (n : Nat) (s2 : TableState) (n2 : Nat),
      applyLoop cfg env fuel s n = some (s2, n2) →
      s2.dirtyChains = [] ∧ s2.dirtyInserts = [] := by
  intro fuel
  induction fuel with
  | zero =>
    intro s n s2 n2 h
    simp [applyLoop] at h
  | succ f ih =>
    intro s n s2 n2 h
    rw [applyLoop_succ] at h
    by_cases hok : (applyUpdates cfg env.restoreOk env.now
        (if s.inSyncWithDataPlane then s
         else loadDataplaneState cfg env.now env.dp s)).ok
    · rw [if_pos hok] at h
      simp only [Option.some.injEq, Prod.mk.injEq] at h
      obtain ⟨h3, _⟩ := h
      rw [← h3]
      exact applyUpdates_ok_clears cfg env.restoreOk env.now _ hok
    · rw [if_neg hok] at h
      exact ih _ _ _ _ h

/-- Claim C3: a second Apply with no intervening desired-state mutations
and no external drift produces an empty transaction and never invokes the
restore command.  Conjunct 1: a successful Apply always ends with both
dirty sets empty (so "no intervening mutations" means they are still empty
at the second call).  Conjunct 2: from any state with empty dirty sets
whose non-ours cache entries satisfy the reconciler's insertion invariant,
an Apply whose read-back equals the cache performs zero restore
invocations. -/
theorem apply_idempotent_no_drift :
    (∀ (cfg : Config) (env : Env) (s s2 : TableState) (n : Nat) (r : Int),
      Apply cfg env s = some (s2, n, r) →
      s2.dirtyChains = [] ∧ s2.dirtyInserts = [])
    ∧ (∀ (cfg : Config) (env : Env) (s : TableState),
      (∀ c rules, (cfg.ruleHashes c rules).length = rules.length) →
      s.dirtyChains = [] → s.dirtyInserts = [] →
      (s.chainToDataplaneHashes.map Prod.fst).Nodup →
      nonOursConsistent cfg s →
      env.dp = s.chainToDataplaneHashes →
      ∃ s2 r, Apply cfg env s = some (s2, 0, r)) := by
  constructor
  · intro cfg env s s2 n r h
    unfold Apply at h
    cases hl : applyLoop cfg env 11 (applyPreamble env s) 0 with
    | none =>
      rw [hl] at h
      simp at h
    | some p =>
      rw [hl] at h
      obtain ⟨p1, p2⟩ := p
      simp only [Option.map, Option.some.injEq, Prod.mk.injEq] at h
      obtain ⟨he1, he2, he3⟩ := h
      rw [← he1]
      exact (applyLoop_dirty_empty cfg env 11 (applyPreamble env s) 0 p1 p2 hl)
  · intro cfg env s hlen hdc hdi hnd hcons hdp
    have h1c : (applyPreamble env s).dirtyChains = [] := hdc
    have h1i : (applyPreamble env s).dirtyInserts = [] := hdi
    have hload : (loadDataplaneState cfg env.now env.dp
        (applyPreamble env s)).dirtyChains = [] ∧
        (loadDataplaneState cfg env.now env.dp
          (applyPreamble env s)).dirtyInserts = [] := by
      have hcache : (applyPreamble env s).chainToDataplaneHashes
          = s.chainToDataplaneHashes := rfl
      have hnd1 : ((applyPreamble env s).chainToDataplaneHashes.map
          Prod.fst).Nodup := hnd
      have hcons1 : nonOursConsistent cfg (applyPreamble env s) := hcons
      have hld := load_no_drift cfg env.now (applyPreamble env s) hnd1
        hcons1 hlen
      rw [show env.dp = (applyPreamble env s).chainToDataplaneHashes from hdp]
      rw [hld]
      exact ⟨h1c, h1i⟩
    have hstep : ∀ st : TableState, st.dirtyChains = [] →
        st.dirtyInserts = [] →
        (applyUpdates cfg env.restoreOk env.now st).ok = true
          ∧ (applyUpdates cfg env.restoreOk env.now st).invoked = false := by
      intro st hc hi
      have htx := buildTxs_no_dirty cfg st hc hi
      constructor <;> simp [applyUpdates, htx]
    have hloop : ∃ s2, applyLoop cfg env 11 (applyPreamble env s) 0
        = some (s2, 0) := by
      rw [show (11 : Nat) = 10 + 1 from rfl, applyLoop_succ]
      by_cases hsync : (applyPreamble env s).inSyncWithDataPlane
      · obtain ⟨hok, hinv⟩ := hstep _ h1c h1i
        rw [if_pos hsync]
        rw [if_pos hok, hinv]
        exact ⟨(applyUpdates cfg env.restoreOk env.now
          (applyPreamble env s)).state, by simp⟩
      · obtain ⟨hok, hinv⟩ := hstep _ hload.1 hload.2
        rw [if_neg hsync]
        rw [if_pos hok, hinv]
        exact ⟨(applyUpdates cfg env.restoreOk env.now
          (loadDataplaneState cfg env.now env.dp (applyPreamble env s))).state,
          by simp⟩
    obtain ⟨s2, hl⟩ := hloop
    refine ⟨s2, rescheduleTime env.now s2, ?_⟩
    unfold Apply
    rw [hl]
    rfl

/-- A drift-free state: empty dirty sets, an owned chain matching its
cached hashes, and a hooked kernel chain whose cache entry satisfies the
insertion invariant. -/
def sIdem : TableState where
  chainToInsertedRules := [("FORWARD", [⟨"f"⟩])]
  dirtyInserts := []
  chainNameToChain := [("cali-a", [⟨"x"⟩])]
  dirtyChains := []
  inSyncWithDataPlane := false
  chainToDataplaneHashes := [("cali-a", ["cali-a|x"]), ("FORWARD", ["FORWARD|f", ""])]
  lastReadTime := 0
  lastWriteTime := 0
  initialPostWriteInterval := 50000000
  postWriteInterval := 50000000
  refreshInterval := 0

/-- The environment of the drift-free second Apply: the read-back equals
the cache and the restore command would succeed. -/
def envIdem : Env := ⟨5, sIdem.chainToDataplaneHashes, true⟩

/-- Default triple for projecting an optional Apply result. -/
def dfltOut : TableState × Nat × Int := (sIdem, 99, 0)

theorem apply_idempotent_no_drift_witness :
    ((Apply cfgLegacy envIdem sIdem).getD dfltOut).2.1 = 0 ∧
    (Apply cfgLegacy envIdem sIdem).isSome = true := by
  obtain ⟨s2, r, h⟩ := apply_idempotent_no_drift.2 cfgLegacy envIdem sIdem
    (fun c rules => by simp [cfgLegacy, fragHashes])
    rfl rfl (by decide)
    (nonOursConsistent_of_entries cfgLegacy sIdem (by decide))
    rfl
  rw [h]
  simp

/- ------------------------------------------------------------------ -/
/- Claim C8: the returned reschedule hint                              -/
/- ------------------------------------------------------------------ -/

/-- The fields of the table state that the loadDataplaneState loops never
touch (they only add to the dirty sets). -/
def frameOf (st : TableState) :=
  (st.chainToInsertedRules, st.chainNameToChain, st.inSyncWithDataPlane,
   st.chainToDataplaneHashes, st.lastReadTime, st.lastWriteTime,
   st.initialPostWriteInterval, st.postWriteInterval, st.refreshInterval)

theorem loadCheckOne_frameOf (cfg : Config) (dp : List (String × List String))
    (k : String) (v : List String) (st : TableState) :
    frameOf (loadCheckOne cfg dp k v st) = frameOf st := by
  simp only [loadCheckOne]
  split_ifs <;> rfl

theorem loadScanOne_frameOf (cfg : Config)
    (oldHashes : List (String × List String)) (k : String) (v : List String)
    (st : TableState) :
    frameOf (loadScanOne cfg oldHashes k v st) = frameOf st := by
  simp only [loadScanOne]
  split_ifs <;> rfl

theorem foldl_check_frameOf (cfg : Config)
    (dp : List (String × List String)) :
    ∀ (entries : List (String × List String)) (st : TableState),
      frameOf (entries.foldl (fun st2 p => loadCheckOne cfg dp p.1 p.2 st2) st)
        = frameOf st := by
  intro entries
  induction entries with
  | nil =>
    intro st
    rfl
  | cons e rest ih =>
    intro st
    simp only [List.foldl_cons]
    exact (ih _).trans (loadCheckOne_frameOf cfg dp e.1 e.2 st)

theorem foldl_scan_frameOf (cfg : Config)
    (oldHashes : List (String × List String)) :
    ∀ (entries : List (String × List String)) (st : TableState),
      frameOf (entries.foldl
        (fun st2 p => loadScanOne cfg oldHashes p.1 p.2 st2) st)
        = frameOf st := by
  intro entries
  induction entries with
  | nil =>
    intro st
    rfl
  | cons e rest ih =>
    intro st
    simp only [List.foldl_cons]
    exact (ih _).trans (loadScanOne_frameOf cfg oldHashes e.1 e.2 st)

theorem load_fields (cfg : Config) (now : Int)
    (dp : List (String × List String)) (st : TableState) :
    (loadDataplaneState cfg now dp st).refreshInterval = st.refreshInterval
    ∧ (loadDataplaneState cfg now dp st).initialPostWriteInterval
        = st.initialPostWriteInterval
    ∧ (loadDataplaneState cfg now dp st).postWriteInterval
        = st.postWriteInterval
    ∧ (loadDataplaneState cfg now dp st).lastWriteTime = st.lastWriteTime
    ∧ (loadDataplaneState cfg now dp st).lastReadTime = now := by
  have h1 := foldl_check_frameOf cfg dp st.chainToDataplaneHashes st
  have h2 := foldl_scan_frameOf cfg st.chainToDataplaneHashes dp
    (st.chainToDataplaneHashes.foldl
      (fun st2 p => loadCheckOne cfg dp p.1 p.2 st2) st)
  simp only [frameOf, Prod.mk.injEq] at h1 h2
  obtain ⟨a1, a2, a3, a4, a5, a6, a7, a8, a9⟩ := h1
  obtain ⟨b1, b2, b3, b4, b5, b6, b7, b8, b9⟩ := h2
  simp only [loadDataplaneState]
  exact ⟨b9.trans a9, b7.trans a7, b8.trans a8, b6.trans a6, trivial⟩

theorem applyUpdates_frame (cfg : Config) (ro : Bool) (now : Int)
    (st : TableState) :
    (applyUpdates cfg ro now st).state.refreshInterval = st.refreshInterval
    ∧ (applyUpdates cfg ro now st).state.initialPostWriteInterval
        = st.initialPostWriteInterval
    ∧ (applyUpdates cfg ro now st).state.lastReadTime = st.lastReadTime
    ∧ (((applyUpdates cfg ro now st).state.postWriteInterval
          = st.postWriteInterval
        ∧ (applyUpdates cfg ro now st).state.lastWriteTime
          = st.lastWriteTime)
       ∨ ((applyUpdates cfg ro now st).state.postWriteInterval
          = st.initialPostWriteInterval
        ∧ (applyUpdates cfg ro now st).state.lastWriteTime = now)) := by
  by_cases hb : (buildTxs cfg st).isEmpty
  · simp [applyUpdates, hb]
  · by_cases hr : ro = true
    · simp [applyUpdates, hb, hr]
    · simp only [Bool.not_eq_true] at hr
      simp [applyUpdates, hb, hr]

theorem applyUpdates_fail_sync (cfg : Config) (ro : Bool) (now : Int)
    (st : TableState) (h : (applyUpdates cfg ro now st).ok = false) :
    (applyUpdates cfg ro now st).state.inSyncWithDataPlane = false
    ∧ (applyUpdates cfg ro now st).state.postWriteInterval
        = st.postWriteInterval
    ∧ (applyUpdates cfg ro now st).state.lastWriteTime = st.lastWriteTime := by
  by_cases hb : (buildTxs cfg st).isEmpty
  · simp [applyUpdates, hb] at h
  · by_cases hr : ro = true
    · simp [applyUpdates, hb, hr] at h
    · simp only [Bool.not_eq_true] at hr
      simp [applyUpdates, hb, hr]

theorem pwLoop_pos (now lastWrite : Int) (p : Nat) (hp : 0 < p) :
    0 < pwLoop now lastWrite p := by
  obtain ⟨k, hk, _⟩ := pwLoopAux_pow now lastWrite 100 p
  rw [show pwLoop now lastWrite p = pwLoopAux 100 now lastWrite p from rfl, hk]
  exact mul_pos (pow_pos (by norm_num) k) hp

theorem applyLoop_facts (cfg : Config) (env : Env) :
    ∀ (fuel : Nat) (s : TableState) (n : Nat) (s2 : TableState) (n2 : Nat),
      applyLoop cfg env fuel s n = some (s2, n2) →
      s2.refreshInterval = s.refreshInterval
      ∧ s2.initialPostWriteInterval = s.initialPostWriteInterval
      ∧ ((s2.postWriteInterval = s.postWriteInterval
          ∧ s2.lastWriteTime = s.lastWriteTime)
         ∨ (s2.postWriteInterval = s.initialPostWriteInterval
          ∧ s2.lastWriteTime = env.now))
      ∧ (s2.lastReadTime = env.now
         ∨ (s2.lastReadTime = s.lastReadTime
          ∧ s.inSyncWithDataPlane = true)) := by
  intro fuel
  induction fuel with
  | zero =>
    intro s n s2 n2 h
    simp [applyLoop] at h
  | succ f ih =>
    intro s n s2 n2 h
    rw [applyLoop_succ] at h
    by_cases hsync : s.inSyncWithDataPlane
    · rw [if_pos hsync] at h
      by_cases hok : (applyUpdates cfg env.restoreOk env.now s).ok
      · rw [if_pos hok] at h
        simp only [Option.some.injEq, Prod.mk.injEq] at h
        obtain ⟨he1, _⟩ := h
        obtain ⟨f1, f2, f3, f4⟩ := applyUpdates_frame cfg env.restoreOk env.now s
        rw [← he1]
        refine ⟨f1, f2, f4, ?_⟩
        rw [f3]
        exact Or.inr ⟨rfl, hsync⟩
      · rw [if_neg hok] at h
        have hfail := applyUpdates_fail_sync cfg env.restoreOk env.now s
          (by simpa using hok)
        obtain ⟨g1, g2, g3, g4⟩ := applyUpdates_frame cfg env.restoreOk env.now s
        obtain ⟨i1, i2, i3, i4⟩ := ih _ _ _ _ h
        refine ⟨i1.trans g1, i2.trans g2, ?_, ?_⟩
        · rcases i3 with ⟨ha, hb⟩ | ⟨ha, hb⟩
          · exact Or.inl ⟨ha.trans hfail.2.1, hb.trans hfail.2.2⟩
          · exact Or.inr ⟨ha.trans g2, hb⟩
        · rcases i4 with h5 | ⟨h5, h6⟩
          · exact Or.inl h5
          · rw [hfail.1] at h6
            simp at h6
    · rw [if_neg hsync] at h
      obtain ⟨l1, l2, l3, l4, l5⟩ := load_fields cfg env.now env.dp s
      by_cases hok : (applyUpdates cfg env.restoreOk env.now
          (loadDataplaneState cfg env.now env.dp s)).ok
      · rw [if_pos hok] at h
        simp only [Option.some.injEq, Prod.mk.injEq] at h
        obtain ⟨he1, _⟩ := h
        obtain ⟨f1, f2, f3, f4⟩ := applyUpdates_frame cfg env.restoreOk env.now
          (loadDataplaneState cfg env.now env.dp s)
        rw [← he1]
        refine ⟨f1.trans l1, f2.trans l2, ?_, ?_⟩
        · rcases f4 with ⟨ha, hb⟩ | ⟨ha, hb⟩
          · exact Or.inl ⟨ha.trans l3, hb.trans l4⟩
          · exact Or.inr ⟨ha.trans l2, hb⟩
        · rw [f3, l5]
          exact Or.inl rfl
      · rw [if_neg hok] at h
        have hfail := applyUpdates_fail_sync cfg env.restoreOk env.now
          (loadDataplaneState cfg env.now env.dp s) (by simpa using hok)
        obtain ⟨g1, g2, g3, g4⟩ := applyUpdates_frame cfg env.restoreOk env.now
          (loadDataplaneState cfg env.now env.dp s)
        obtain ⟨i1, i2, i3, i4⟩ := ih _ _ _ _ h
        refine ⟨(i1.trans g1).trans l1, (i2.trans g2).trans l2, ?_, ?_⟩
        · rcases i3 with ⟨ha, hb⟩ | ⟨ha, hb⟩
          · exact Or.inl ⟨(ha.trans hfail.2.1).trans l3,
              (hb.trans hfail.2.2).trans l4⟩
          · exact Or.inr ⟨(ha.trans g2).trans l2, hb⟩
        · rcases i4 with h5 | ⟨h5, h6⟩
          · exact Or.inl h5
          · rw [hfail.1] at h6
            simp at h6

/-- The claim's reading of the returned duration: the minimum of the
refresh-interval remainder (when a refresh interval is configured) and
the post-write remainder (when that interval is below one hour), clamped
to one millisecond when the result is already overdue. -/
def rescheduleSpec (now : Int) (st : TableState) : Int :=
  let refreshRem : Int :=
    (st.refreshInterval : Int) - (now - st.lastReadTime)
  let writeRem : Int :=
    st.lastWriteTime + (st.postWriteInterval : Int) - now
  let base : Int :=
    if 0 < st.refreshInterval then
      (if st.postWriteInterval < hourNs then min refreshRem writeRem
       else refreshRem)
    else (if st.postWriteInterval < hourNs then writeRem else 0)
  if base < 0 then oneMs else base

theorem reschedule_eq_spec (now : Int) (st : TableState)
    (hR : 0 < st.refreshInterval →
      0 ≤ (st.refreshInterval : Int) - (now - st.lastReadTime))
    (hW : st.postWriteInterval < hourNs →
      0 < st.lastWriteTime + (st.postWriteInterval : Int) - now) :
    rescheduleTime now st = rescheduleSpec now st := by
  simp only [rescheduleTime, rescheduleSpec]
  by_cases h2 : st.postWriteInterval < hourNs
  · have hw := hW h2
    simp only [h2, if_true]
    by_cases h1 : 0 < st.refreshInterval
    · have hr := hR h1
      simp only [h1, if_true]
      rw [if_neg (by omega)]
      have hne : ¬ st.refreshInterval = 0 := by omega
      by_cases h3 : st.lastWriteTime + (st.postWriteInterval : Int) - now
          < (st.refreshInterval : Int) - (now - st.lastReadTime)
      · rw [if_pos (Or.inr h3)]
        rw [min_eq_right (le_of_lt h3)]
        rw [if_neg (by omega)]
      · rw [if_neg (by
          intro hcon
          rcases hcon with hcon | hcon
          · exact hne hcon
          · exact h3 hcon)]
        rw [min_eq_left (by omega)]
        rw [if_neg (by omega)]
    · have h0 : st.refreshInterval = 0 := by omega
      simp only [h1, if_false]
      rw [if_neg (by omega)]
      rw [if_pos (Or.inl h0)]
      rw [if_neg (by omega)]
  · simp only [h2, if_false]
    by_cases h1 : 0 < st.refreshInterval
    · have hr := hR h1
      simp only [h1, if_true]
      rw [if_neg (by omega)]
    · simp only [h1, if_false]
      rw [if_neg (by omega)]

/-- Claim C8: for every Apply call that succeeds, the returned reschedule
duration equals the minimum of the refresh-interval remainder (when a
refresh interval is configured) and the post-write remainder (when that
interval is below one hour), clamped to one millisecond when the result
is overdue (the clamp case is unreachable from a successful Apply with a
fixed clock, where both remainders are non-negative). -/
theorem apply_reschedule_min (cfg : Config) (env : Env) (s s2 : TableState)
    (n : Nat) (r : Int)
    (h : Apply cfg env s = some (s2, n, r))
    (hpw : 0 < s.postWriteInterval)
    (hinit : 0 < s.initialPostWriteInterval) :
    r = rescheduleSpec env.now s2 := by
  unfold Apply at h
  cases hl : applyLoop cfg env 11 (applyPreamble env s) 0 with
  | none =>
    rw [hl] at h
    simp at h
  | some p =>
    rw [hl] at h
    obtain ⟨p1, p2⟩ := p
    simp only [Option.map, Option.some.injEq, Prod.mk.injEq] at h
    obtain ⟨he1, _, he3⟩ := h
    rw [← he3, ← he1]
    obtain ⟨f1, f2, f3, f4⟩ :=
      applyLoop_facts cfg env 11 (applyPreamble env s) 0 p1 p2 hl
    have hpre_r : (applyPreamble env s).refreshInterval
        = s.refreshInterval := rfl
    have hpre_i : (applyPreamble env s).initialPostWriteInterval
        = s.initialPostWriteInterval := rfl
    have hre : p1.refreshInterval = s.refreshInterval := f1.trans hpre_r
    apply reschedule_eq_spec
    · intro hrpos
      rcases f4 with h5 | ⟨h5, h6⟩
      · rw [h5]
        omega
      · have hsync := h6
        simp only [applyPreamble, Bool.and_eq_true] at hsync
        have hnot := hsync.2
        rw [Bool.not_eq_true'] at hnot
        rw [Bool.or_eq_false_iff] at hnot
        have hcond := of_decide_eq_false hnot.1
        rw [hre] at hrpos
        have hlr : p1.lastReadTime = s.lastReadTime := h5
        rw [hlr, hre]
        have hb : ¬ ((s.refreshInterval : Int) < env.now - s.lastReadTime) :=
          fun hb => hcond ⟨hrpos, hb⟩
        omega
    · intro hlt
      rcases f3 with ⟨ha, hb⟩ | ⟨ha, hb⟩
      · have hpwv : p1.postWriteInterval
            = pwLoop env.now s.lastWriteTime s.postWriteInterval := ha
        have hlwv : p1.lastWriteTime = s.lastWriteTime := hb
        have hexit := pwLoop_exit env.now s.lastWriteTime s.postWriteInterval
        have hpos := pwLoop_pos env.now s.lastWriteTime s.postWriteInterval hpw
        simp only [pwDueB, decide_eq_false_iff_not] at hexit
        rw [hpwv, hlwv]
        rw [hpwv] at hlt
        by_contra hcon
        push_neg at hcon
        exact hexit ⟨by omega, hlt, by omega⟩
      · have hiv : p1.postWriteInterval = s.initialPostWriteInterval :=
          ha.trans hpre_i
        rw [hiv, hb]
        omega

/-- The state after the drift-free Apply of envIdem on sIdem. -/
def sIdemOut : TableState where
  chainToInsertedRules := [("FORWARD", [⟨"f"⟩])]
  dirtyInserts := []
  chainNameToChain := [("cali-a", [⟨"x"⟩])]
  dirtyChains := []
  inSyncWithDataPlane := true
  chainToDataplaneHashes := [("cali-a", ["cali-a|x"]), ("FORWARD", ["FORWARD|f", ""])]
  lastReadTime := 5
  lastWriteTime := 0
  initialPostWriteInterval := 50000000
  postWriteInterval := 50000000
  refreshInterval := 0

theorem apply_reschedule_min_witness :
    (49999995 : Int) = rescheduleSpec envIdem.now sIdemOut :=
  apply_reschedule_min cfgLegacy envIdem sIdem sIdemOut 0 49999995
    (by decide) (by decide) (by decide)

end Felix
